import Mathlib

/-!
Verification of the Architecture Validation & Scoring Engine of the
layered-architecture-game repository, shallowly embedded in Lean 4.

The embedding follows the TypeScript sources:
* `packages/shared-domain/src/value-objects/layer-id.ts` (`LayerId`, `Layer`,
  `Metrics`, `Bonus`, `Score`),
* `packages/shared-domain/src/models/code-block.ts` (`BlockType`, `CodeBlock`),
* `packages/shared-domain/src/models/layer-structure.ts` (`LayerStructure`
  and its operations, cycle detection),
* the architecture validator (`ArchitectureValidator`) and rule
  configuration sources.

JavaScript `number` arithmetic in `Score` is modelled faithfully as IEEE-754
binary64 arithmetic over exact rationals: `fl` rounds a rational to the
nearest representable double (ties to even), and every arithmetic step of
the source is composed with `fl`.  Overflow to infinity and NaN are outside
the model (all values relevant to the claims are far from the double range
limits).  Mutating methods are embedded as state-passing functions returning
the new state; TypeScript `Result` failures and thrown errors are both
embedded as the `Res` sum.
-/

set_option allowUnsafeReducibility true
attribute [semireducible] Rat.add Rat.mul Rat.div Rat.sub Rat.neg Rat.inv Rat.blt Rat.floor
set_option maxRecDepth 20000
set_option exponentiation.threshold 4000

namespace ArchGame

/-- `enum LayerId` from `value-objects/layer-id.ts`. -/
inductive LayerId where
  | presentation
  | application
  | domain
  | infrastructure
deriving DecidableEq, Repr

/-- `enum BlockType` from `models/code-block.ts`. -/
inductive BlockType where
  | uiComponent
  | entity
  | valueObject
  | service
  | usecase
  | dto
  | repository
  | repositoryImpl
  | controller
  | domainService
deriving DecidableEq, Repr

/-- `interface BlockProperty` from `models/code-block.ts`. -/
structure BlockProperty where
  name : String
  type : String
deriving DecidableEq, Repr

/-- `interface BlockMethod` from `models/code-block.ts`. -/
structure BlockMethod where
  name : String
  lines : Nat
deriving DecidableEq, Repr

/-- `class CodeBlock` from `models/code-block.ts`.  In the source the `id`
is derived from type, name and a creation timestamp
(`id = type + "-" + name + "-" + Date.now()`); the embedding carries the
resulting id string as a field. -/
structure CodeBlock where
  id : String
  name : String
  type : BlockType
  properties : List BlockProperty := []
  methods : List BlockMethod := []
deriving DecidableEq, Repr

def CodeBlock.isUIComponent (b : CodeBlock) : Bool :=
  b.type = BlockType.uiComponent

def CodeBlock.isEntity (b : CodeBlock) : Bool :=
  b.type = BlockType.entity

def CodeBlock.isValueObject (b : CodeBlock) : Bool :=
  b.type = BlockType.valueObject

/-- `CodeBlock.isDomainModel`: entity, value object or domain service. -/
def CodeBlock.isDomainModel (b : CodeBlock) : Bool :=
  b.isEntity || b.isValueObject || b.type = BlockType.domainService

/-- `CodeBlock.isInfrastructure`: repository implementation. -/
def CodeBlock.isInfrastructure (b : CodeBlock) : Bool :=
  b.type = BlockType.repositoryImpl

/-- `class Connection` (an ordered pair of block ids, "from depends on to").
`from` is a Lean keyword, so the fields are `fromId`/`toId`. -/
structure Connection where
  fromId : String
  toId : String
deriving DecidableEq, Repr

/-- `class Layer` from `value-objects/layer-id.ts`: a fixed identifier, a
display name and the set of block ids assigned to the layer.  The JS `Set`
is embedded as an insertion-ordered duplicate-free list. -/
structure Layer where
  id : LayerId
  name : String
  blocks : List String := []
deriving DecidableEq, Repr

/-- `Layer.addBlock` (`Set.add`: no effect when already present). -/
def Layer.addBlock (l : Layer) (blockId : String) : Layer :=
  if blockId ∈ l.blocks then l else { l with blocks := l.blocks ++ [blockId] }

def Layer.hasBlock (l : Layer) (blockId : String) : Bool :=
  blockId ∈ l.blocks

/-- `class Result<T>` from `models/result.ts` (also used to embed thrown
errors of the `Score` value object). -/
inductive Res (α : Type) where
  | ok (value : α)
  | fail (error : String)
deriving DecidableEq, Repr

def Res.isSuccess {α : Type} : Res α → Bool
  | .ok _ => true
  | .fail _ => false

def Res.isFailure {α : Type} (r : Res α) : Bool :=
  !r.isSuccess

/-- `interface Violation` from `models/validation-result.ts` (the optional
structured `details` payload is not modelled; the claims concern the type
tag and message). -/
structure Violation where
  type : String
  message : String
deriving DecidableEq, Repr

/-- `class ValidationResult` from `models/validation-result.ts`. -/
structure ValidationResult where
  isValid : Bool
  violations : List Violation := []
  score : Option Int := none
deriving DecidableEq, Repr

def ValidationResult.valid : ValidationResult :=
  { isValid := true }

def ValidationResult.invalid (violations : List Violation) : ValidationResult :=
  { isValid := false, violations := violations }

/-- The entry stored in `LayerStructure`'s block map: `{ block, layerId }`. -/
structure BlockEntry where
  block : CodeBlock
  layerId : LayerId
deriving DecidableEq, Repr

/-- First-match lookup in an insertion-ordered association list (the
embedding of JS `Map.get`). -/
def lookupPair {β : Type} : List (String × β) → String → Option β
  | [], _ => none
  | p :: rest, x => if p.1 = x then some p.2 else lookupPair rest x

def hasKey {β : Type} (m : List (String × β)) (k : String) : Bool :=
  (lookupPair m k).isSome

/-- The embedding of JS `Map.set`: replace in place when the key exists
(keeping insertion order), append otherwise. -/
def setPair {β : Type} (m : List (String × β)) (k : String) (v : β) :
    List (String × β) :=
  if hasKey m k then
    m.map fun p => if p.1 = k then (k, v) else p
  else m ++ [(k, v)]

/-- `class LayerStructure` from `models/layer-structure.ts`.  The source
keeps the four fixed layers in a `Map<LayerId, Layer>` that always holds
exactly the four keys; the embedding stores them as four fields.  `blocks`
is the insertion-ordered block map, `connections` the connection list. -/
structure LayerStructure where
  presentation : Layer
  application : Layer
  domain : Layer
  infrastructure : Layer
  blocks : List (String × BlockEntry) := []
  connections : List Connection := []
deriving DecidableEq, Repr

/-- `LayerStructure.create()`: the empty graph with the four fixed layers
(display names as in the source constructor). -/
def LayerStructure.create : LayerStructure where
  presentation := { id := .presentation, name := "プレゼンテーション層" }
  application := { id := .application, name := "アプリケーション層" }
  domain := { id := .domain, name := "ドメイン層" }
  infrastructure := { id := .infrastructure, name := "インフラストラクチャ層" }

/-- `this.layers.get(layerId)` — total, since the map always holds the four
fixed layers. -/
def LayerStructure.getLayer (s : LayerStructure) : LayerId → Layer
  | .presentation => s.presentation
  | .application => s.application
  | .domain => s.domain
  | .infrastructure => s.infrastructure

def LayerStructure.setLayer (s : LayerStructure) : LayerId → Layer → LayerStructure
  | .presentation, l => { s with presentation := l }
  | .application, l => { s with application := l }
  | .domain, l => { s with domain := l }
  | .infrastructure, l => { s with infrastructure := l }

def LayerStructure.lookupBlock (s : LayerStructure) (blockId : String) :
    Option BlockEntry :=
  lookupPair s.blocks blockId

/-- `LayerStructure.validateBlockPlacement`: block-type/layer compatibility,
checked in source order with the source's failure messages. -/
def LayerStructure.validateBlockPlacement (layerId : LayerId) (block : CodeBlock) :
    Res Unit :=
  if block.isUIComponent ∧ layerId ≠ LayerId.presentation then
    .fail "UIコンポーネントはプレゼンテーション層にのみ配置できます"
  else if block.isDomainModel ∧ layerId ≠ LayerId.domain then
    .fail "ドメインモデルはドメイン層にのみ配置できます"
  else if block.isInfrastructure ∧ layerId ≠ LayerId.infrastructure then
    .fail "リポジトリ実装はインフラストラクチャ層にのみ配置できます"
  else .ok ()

/-- `LayerStructure.addBlock`: validate placement, then attach the block id
to the layer's block set and register it in the block map.  The source's
`if (!layer)` guard is dead code (the layer map always holds the four fixed
layers) and has no counterpart here. -/
def LayerStructure.addBlock (s : LayerStructure) (layerId : LayerId)
    (block : CodeBlock) : Res Unit × LayerStructure :=
  match LayerStructure.validateBlockPlacement layerId block with
  | .fail e => (.fail e, s)
  | .ok _ =>
    let layer := s.getLayer layerId
    let s' := s.setLayer layerId (layer.addBlock block.id)
    (.ok (), { s' with blocks := setPair s'.blocks block.id ⟨block, layerId⟩ })

/-- `LayerStructure.validateDependency`: the five directional legality
rules, evaluated in source order. -/
def LayerStructure.validateDependency (fromLayer toLayer : LayerId) : Res Unit :=
  if fromLayer = LayerId.domain ∧ toLayer ≠ LayerId.domain then
    .fail "ドメイン層は他の層に依存できません"
  else if fromLayer = LayerId.presentation ∧ toLayer = LayerId.infrastructure then
    .fail "プレゼンテーション層はインフラストラクチャ層に直接依存できません"
  else if fromLayer = LayerId.presentation ∧ toLayer = LayerId.domain then
    .fail "プレゼンテーション層はドメイン層に直接依存できません"
  else if fromLayer = LayerId.application ∧ toLayer = LayerId.presentation then
    .fail "アプリケーション層はプレゼンテーション層に依存できません"
  else if fromLayer = LayerId.infrastructure ∧
      (toLayer = LayerId.presentation ∨ toLayer = LayerId.application) then
    .fail "インフラストラクチャ層は上位層に依存できません"
  else .ok ()

/-- `LayerStructure.createConnection`: not-found check on both endpoints,
then the direction rules, then append the connection. -/
def LayerStructure.createConnection (s : LayerStructure)
    (fromBlockId toBlockId : String) : Res Connection × LayerStructure :=
  match s.lookupBlock fromBlockId, s.lookupBlock toBlockId with
  | some fromBlock, some toBlock =>
    match LayerStructure.validateDependency fromBlock.layerId toBlock.layerId with
    | .fail e => (.fail e, s)
    | .ok _ =>
      let connection : Connection := ⟨fromBlockId, toBlockId⟩
      (.ok connection, { s with connections := s.connections ++ [connection] })
  | _, _ => (.fail "指定されたブロックが存在しません", s)

/-! ## Cycle detection (`detectCyclicDependency` / `dfsDetectCycle`) -/

/-- Neighbour list of a node in the adjacency list (`adjacencyList.get(node)
?? []`). -/
def lookupAdj : List (String × List String) → String → List String
  | [], _ => []
  | p :: rest, x => if p.1 = x then p.2 else lookupAdj rest x

/-- One step of the adjacency-list construction of `detectCyclicDependency`:
create the key on first sight, then push the target. -/
def addEdge (adj : List (String × List String)) (c : Connection) :
    List (String × List String) :=
  if hasKey adj c.fromId then
    adj.map fun p => if p.1 = c.fromId then (p.1, p.2 ++ [c.toId]) else p
  else adj ++ [(c.fromId, [c.toId])]

def buildAdj (connections : List Connection) : List (String × List String) :=
  connections.foldl addEdge []

/-- First index of `x` in `l` (`Array.indexOf`; `l.length` when absent — the
absent case is unreachable in `dfsDetectCycle`, where the recursion stack
and the path always hold the same elements). -/
def indexOfStr (x : String) : List String → Nat
  | [] => 0
  | y :: ys => if y = x then 0 else indexOfStr x ys + 1

/-- `LayerStructure.dfsDetectCycle`, fuel-indexed.  The source recursion
terminates because every recursive call targets an unvisited node; the
embedding spends one unit of fuel per visited node, and
`detectCyclicDependency` supplies more fuel than there are nodes, so the
fuel-exhaustion branch is never taken there.  The `for` loop over the
neighbours (with its early return once a cycle is found) is embedded as a
fold carrying the pending result and the visited set; `visited` persists
across calls, `recStack` and `path` are restored on a cycle-free return
exactly as in the source (push on entry, pop before returning null). -/
def dfsDetectCycle (adj : List (String × List String)) :
    Nat → String → List String → List String → List String →
    Option (List String) × List String
  | 0, _, visited, _, _ => (none, visited)
  | fuel + 1, node, visited, recStack, path =>
    let visited' := node :: visited
    let recStack' := node :: recStack
    let path' := path ++ [node]
    (lookupAdj adj node).foldl
      (fun acc neighbor =>
        match acc with
        | (some cycle, v) => (some cycle, v)
        | (none, v) =>
          if neighbor ∉ v then
            dfsDetectCycle adj fuel neighbor v recStack' path'
          else if neighbor ∈ recStack' then
            (some (path'.drop (indexOfStr neighbor path') ++ [neighbor]), v)
          else (none, v))
      (none, visited')

/-- The loop of `detectCyclicDependency` over the block-map keys in
registration order, threading the visited set and returning the first cycle
found. -/
def detectLoop (adj : List (String × List String)) (fuel : Nat) :
    List String → List String → Option (List String)
  | [], _ => none
  | blockId :: rest, visited =>
    if blockId ∈ visited then detectLoop adj fuel rest visited
    else
      match dfsDetectCycle adj fuel blockId visited [] [] with
      | (some cycle, _) => some cycle
      | (none, visited') => detectLoop adj fuel rest visited'

/-- `LayerStructure.detectCyclicDependency`: build the adjacency list, then
depth-first search from each unvisited registered block. -/
def LayerStructure.detectCyclicDependency (s : LayerStructure) :
    Option (List String) :=
  detectLoop (buildAdj s.connections) (s.blocks.length + s.connections.length + 1)
    (s.blocks.map Prod.fst) []

/-- `LayerStructure.validate()`: the graph model's own minimal self-check —
cycle detection only. -/
def LayerStructure.validate (s : LayerStructure) : ValidationResult :=
  match s.detectCyclicDependency with
  | some cycle =>
    ValidationResult.invalid
      [⟨"CYCLIC_DEPENDENCY",
        "循環依存が検出されました: " ++ String.intercalate " -> " cycle⟩]
  | none => ValidationResult.valid

/-! ## The rule engine (`ArchitectureValidator`, `validation-rule.ts`) -/

/-- `enum ValidationRule` from `models/validation-rule.ts`. -/
inductive ValidationRule where
  | noDependencyViolation
  | noCyclicDependency
  | noPresentationToInfra
  | noUIInDTO
  | noFatService
  | noDomainLogicInController
  | requireInterfaceForRepository
deriving DecidableEq, Repr

/-- `interface RuleConfig` (severity is carried but unused by the
validator's logic). -/
structure RuleConfig where
  enabled : Bool
  maxMethods : Option Nat := none
  maxLines : Option Nat := none
deriving DecidableEq, Repr

/-- `DEFAULT_RULE_CONFIGS` from `models/validation-rule.ts`. -/
def DEFAULT_RULE_CONFIGS : ValidationRule → RuleConfig
  | .noFatService => { enabled := true, maxMethods := some 20, maxLines := some 200 }
  | _ => { enabled := true }

def LayerStructure.getConnections (s : LayerStructure) : List Connection :=
  s.connections

def LayerStructure.getAllBlocks (s : LayerStructure) : List BlockEntry :=
  s.blocks.map Prod.snd

def LayerStructure.getBlockLayer (s : LayerStructure) (blockId : String) :
    Option LayerId :=
  (s.lookupBlock blockId).map BlockEntry.layerId

/-- Modelled from the spec: `LayerStructure.detectAllCycles` is called by
the validator's no-cyclic-dependency rule but its implementation is not
among the provided sources.  §4.2: depth-first search from each unvisited
root in block-registration order, reporting the first cycle found per
traversal root. -/
def LayerStructure.detectAllCycles (s : LayerStructure) : List (List String) :=
  let adj := buildAdj s.connections
  let fuel := s.blocks.length + s.connections.length + 1
  go adj fuel (s.blocks.map Prod.fst) []
where
  go (adj : List (String × List String)) (fuel : Nat) :
      List String → List String → List (List String)
    | [], _ => []
    | blockId :: rest, visited =>
      if blockId ∈ visited then go adj fuel rest visited
      else
        match dfsDetectCycle adj fuel blockId visited [] [] with
        | (some cycle, visited') => cycle :: go adj fuel rest visited'
        | (none, visited') => go adj fuel rest visited'

/-- `ArchitectureValidator.validateDependencyDirection`: the source returns
an empty violation list unconditionally (its comment defers the actual
check to `LayerStructure.createConnection`). -/
def validateDependencyDirection (_s : LayerStructure) : List Violation :=
  []

/-- `ArchitectureValidator.validateNoCyclicDependency`. -/
def validateNoCyclicDependency (s : LayerStructure) : List Violation :=
  (s.detectAllCycles).map fun cycle =>
    ⟨"CYCLIC_DEPENDENCY",
      "循環依存が検出されました: " ++ String.intercalate " -> " cycle⟩

/-- `ArchitectureValidator.validateNoPresentationToInfra`. -/
def validateNoPresentationToInfra (s : LayerStructure) : List Violation :=
  s.getConnections.filterMap fun connection =>
    if s.getBlockLayer connection.fromId = some LayerId.presentation ∧
        s.getBlockLayer connection.toId = some LayerId.infrastructure then
      some ⟨"PRESENTATION_TO_INFRA",
        "プレゼンテーション層の \"" ++
          (((s.lookupBlock connection.fromId).map
            (fun e => e.block.name)).getD "") ++
        "\" がインフラ層の \"" ++
          (((s.lookupBlock connection.toId).map
            (fun e => e.block.name)).getD "") ++
        "\" に直接依存しています"⟩
    else none

/-- `ArchitectureValidator.isUIRelatedType`: the UI marker list, matched by
substring (`String.includes`). -/
def isUIRelatedType (type : String) : Bool :=
  ["onClick", "onSubmit", "onChange", "onFocus", "onBlur",
   "() => void", "EventHandler", "MouseEvent", "KeyboardEvent",
   "FormEvent", "ChangeEvent", "FocusEvent"].any
    fun uiType => decide (List.IsInfix uiType.toList type.toList)

/-- `ArchitectureValidator.validateDTOPurity`. -/
def validateDTOPurity (s : LayerStructure) : List Violation :=
  s.getAllBlocks.flatMap fun entry =>
    if entry.block.type = BlockType.dto then
      entry.block.properties.filterMap fun property =>
        if isUIRelatedType property.type then
          some ⟨"DTO_PURITY_VIOLATION",
            "DTOにUI関心が含まれています: " ++ entry.block.name ++ "." ++
              property.name⟩
        else none
    else []

/-- `ArchitectureValidator.validateNoFatService`: method-count and per-method
line-count thresholds (defaults 20 and 200). -/
def validateNoFatService (cfg : ValidationRule → RuleConfig)
    (s : LayerStructure) : List Violation :=
  let maxMethods := ((cfg .noFatService).maxMethods).getD 20
  let maxLines := ((cfg .noFatService).maxLines).getD 200
  s.getAllBlocks.flatMap fun entry =>
    if entry.block.type = BlockType.service then
      (if entry.block.methods.length > maxMethods then
        [⟨"FAT_SERVICE",
          "サービス \"" ++ entry.block.name ++ "\" のメソッド数が多すぎます (" ++
            toString entry.block.methods.length ++ "個、閾値: " ++
            toString maxMethods ++ "個)"⟩]
      else []) ++
      entry.block.methods.filterMap fun method =>
        if method.lines > maxLines then
          some ⟨"FAT_SERVICE",
            "サービス \"" ++ entry.block.name ++ "\" のメソッド \"" ++
              method.name ++ "\" の行数が多すぎます (" ++ toString method.lines ++
              "行、閾値: " ++ toString maxLines ++ "行)"⟩
        else none
    else []

/-- `ArchitectureValidator.validateRule`: dispatch on the rule tag (the two
rules without a case in the source switch fall through to the empty list). -/
def validateRule (cfg : ValidationRule → RuleConfig) (rule : ValidationRule)
    (s : LayerStructure) : List Violation :=
  match rule with
  | .noDependencyViolation => validateDependencyDirection s
  | .noCyclicDependency => validateNoCyclicDependency s
  | .noPresentationToInfra => validateNoPresentationToInfra s
  | .noUIInDTO => validateDTOPurity s
  | .noFatService => validateNoFatService cfg s
  | _ => []

/-- `ArchitectureValidator.calculateScore`: start at 100, subtract a fixed
penalty per violation type, clamp once at the end. -/
def calculateScore (violations : List Violation) : Int :=
  let score :=
    violations.foldl
      (fun score violation =>
        match violation.type with
        | "CYCLIC_DEPENDENCY" => score - 30
        | "DEPENDENCY_VIOLATION" => score - 20
        | "DTO_PURITY_VIOLATION" => score - 15
        | "PRESENTATION_TO_INFRA" => score - 15
        | "FAT_SERVICE" => score - 10
        | _ => score - 5)
      (100 : Int)
  max 0 (min 100 score)

/-- `ArchitectureValidator.validate`: run the enabled rules in order,
accumulate their violations, attach the penalty score. -/
def validatorValidate (rules : List ValidationRule)
    (cfg : ValidationRule → RuleConfig) (s : LayerStructure) :
    ValidationResult :=
  let violations :=
    rules.flatMap fun rule =>
      if (cfg rule).enabled then validateRule cfg rule s else []
  { isValid := violations.length = 0
    violations := violations
    score := some (calculateScore violations) }

/-! ## IEEE-754 binary64 arithmetic over exact rationals

JavaScript numbers are binary64 doubles.  `fl` rounds an exact rational to
the nearest representable double (ties to even), expressed as an exact
rational; `jsMul`/`jsAdd` are the correctly rounded double operations, and
`jsRound` is `Math.round` (half toward positive infinity) on the exact
value of a double.  Overflow to infinity is not modelled (no value near the
double range limit occurs in the claims). -/

/-- `pow2 n` is `2 ^ n` as a rational, computed through natural-number
exponentiation. -/
def pow2 (n : Nat) : ℚ := ((2 ^ n : ℕ) : ℚ)

/-- Bit length of a natural number (tail-recursive; the first argument is
fuel, and `n` itself is always enough of it). -/
def bitlenAux : Nat → Nat → Nat → Nat
  | 0, _, acc => acc
  | fuel + 1, n, acc => if n = 0 then acc else bitlenAux fuel (n / 2) (acc + 1)

def bitlen (n : Nat) : Nat := bitlenAux n n 0

/-- Round a rational to the nearest integer, ties to even. -/
def rne (q : ℚ) : ℤ :=
  let f := ⌊q⌋
  let r := q - (f : ℚ)
  if r < 1/2 then f
  else if 1/2 < r then f + 1
  else if f % 2 = 0 then f else f + 1

/-- Binary64 rounding of a nonnegative rational: scale to the subnormal
grid `2 ^ (-1074)`, find the binade from the bit length, and round to 53
significant bits (or to the fixed subnormal grid below the normal range). -/
def flPos (q : ℚ) : ℚ :=
  let N : ℤ := ⌊q * pow2 1074⌋
  let k := bitlen N.toNat
  if k ≤ 53 then (rne (q * pow2 1074) : ℚ) / pow2 1074
  else
    let s := k - 53
    (rne (q * pow2 1074 / pow2 s) : ℚ) * pow2 s / pow2 1074

/-- Binary64 rounding of an exact rational. -/
def fl (q : ℚ) : ℚ := if q < 0 then -flPos (-q) else flPos q

/-- Double multiplication: the correctly rounded exact product. -/
def jsMul (a b : ℚ) : ℚ := fl (a * b)

/-- Double addition: the correctly rounded exact sum. -/
def jsAdd (a b : ℚ) : ℚ := fl (a + b)

/-- `Math.round`: nearest integer, half toward positive infinity. -/
def jsRound (q : ℚ) : ℤ := ⌊q + 1/2⌋

/-! ## The `Score` value object (`value-objects/score.ts`) -/

/-- `interface Metrics`.  The four fields are JS numbers; the embedding
quantifies over exact rationals. -/
structure Metrics where
  accuracy : ℚ
  efficiency : ℚ
  maintainability : ℚ
  speed : ℚ
deriving DecidableEq, Repr

inductive BonusType where
  | noHints
  | noAntipatterns
deriving DecidableEq, Repr

/-- `interface Bonus`. -/
structure Bonus where
  type : BonusType
  multiplier : ℚ
deriving DecidableEq, Repr

/-- `class Score`: an integer-valued quality score in `[0,100]`. -/
structure Score where
  value : ℚ
deriving DecidableEq, Repr

/-- The `Score` constructor: throws unless `0 ≤ value ≤ 100`. -/
def Score.create (value : ℚ) : Res Score :=
  if value < 0 ∨ 100 < value then
    .fail "スコアは0以上100以下である必要があります"
  else .ok ⟨value⟩

/-- The double values of the weight literals `0.35`, `0.25`, `0.15` of
`Score.WEIGHTS`. -/
def weightAccuracy : ℚ := fl (35 / 100)

def weightEfficiency : ℚ := fl (25 / 100)

def weightMaintainability : ℚ := fl (25 / 100)

def weightSpeed : ℚ := fl (15 / 100)

/-- The double evaluation of `Score.calculate`'s `weightedSum` expression
(left-associated additions, each operation correctly rounded). -/
def weightedSum (m : Metrics) : ℚ :=
  jsAdd
    (jsAdd
      (jsAdd (jsMul m.accuracy weightAccuracy) (jsMul m.efficiency weightEfficiency))
      (jsMul m.maintainability weightMaintainability))
    (jsMul m.speed weightSpeed)

/-- `Score.calculate`: validate the four metrics (the `forEach` throws at
the first out-of-range value, always with the same message), then round the
weighted sum and build the score through the checked constructor. -/
def Score.calculate (m : Metrics) : Res Score :=
  if m.accuracy < 0 ∨ 100 < m.accuracy then
    .fail "メトリクスの値は0以上100以下である必要があります"
  else if m.efficiency < 0 ∨ 100 < m.efficiency then
    .fail "メトリクスの値は0以上100以下である必要があります"
  else if m.maintainability < 0 ∨ 100 < m.maintainability then
    .fail "メトリクスの値は0以上100以下である必要があります"
  else if m.speed < 0 ∨ 100 < m.speed then
    .fail "メトリクスの値は0以上100以下である必要があります"
  else Score.create ((jsRound (weightedSum m) : ℤ) : ℚ)

/-- `Score.addBonus`: multiply by the bonus multiplier (a double
multiplication), round, and rebuild through the checked constructor. -/
def Score.addBonus (s : Score) (b : Bonus) : Res Score :=
  Score.create ((jsRound (jsMul s.value b.multiplier) : ℤ) : ℚ)

/-! ## Call sequences against a fresh graph model -/

/-- A mutating engine call: the two guarded mutations of `LayerStructure`. -/
inductive Op where
  | addBlock (layerId : LayerId) (block : CodeBlock)
  | createConnection (fromId toId : String)
deriving DecidableEq, Repr

/-- Run one call, keeping the (possibly unchanged) state. -/
def runOp (s : LayerStructure) : Op → LayerStructure
  | .addBlock layerId block => (s.addBlock layerId block).2
  | .createConnection fromId toId => (s.createConnection fromId toId).2

def execFrom (s : LayerStructure) (ops : List Op) : LayerStructure :=
  ops.foldl runOp s

/-- The state after a call sequence against a fresh graph model. -/
def exec (ops : List Op) : LayerStructure :=
  execFrom LayerStructure.create ops

/-- The block ids of the `addBlock` calls of a sequence, in order. -/
def addBlockIds (ops : List Op) : List String :=
  ops.filterMap fun op =>
    match op with
    | .addBlock _ block => some block.id
    | _ => none

/-! ## Spec-side definitions

The following definitions are written from the words of the claims (not
from the source), to be compared with the source embedding above. -/

/-- Claim C1's directional legality table: the five ordered rules, each with
the failure message the source reports for it; `none` for every other
directed pair. -/
def specDirectionError (fromLayer toLayer : LayerId) : Option String :=
  if fromLayer = LayerId.domain ∧ toLayer ≠ LayerId.domain then
    some "ドメイン層は他の層に依存できません"
  else if fromLayer = LayerId.presentation ∧ toLayer = LayerId.infrastructure then
    some "プレゼンテーション層はインフラストラクチャ層に直接依存できません"
  else if fromLayer = LayerId.presentation ∧ toLayer = LayerId.domain then
    some "プレゼンテーション層はドメイン層に直接依存できません"
  else if fromLayer = LayerId.application ∧ toLayer = LayerId.presentation then
    some "アプリケーション層はプレゼンテーション層に依存できません"
  else if fromLayer = LayerId.infrastructure ∧
      (toLayer = LayerId.presentation ∨ toLayer = LayerId.application) then
    some "インフラストラクチャ層は上位層に依存できません"
  else none

/-- Claim C6's placement-compatibility table: a UI component only in the
presentation layer, a domain model (entity, value object, domain service)
only in the domain layer, a repository implementation only in the
infrastructure layer, anything else anywhere; with the source's message for
each incompatibility. -/
def specPlacementError (bt : BlockType) (layerId : LayerId) : Option String :=
  match bt, layerId with
  | .uiComponent, .presentation => none
  | .uiComponent, _ => some "UIコンポーネントはプレゼンテーション層にのみ配置できます"
  | .entity, .domain => none
  | .entity, _ => some "ドメインモデルはドメイン層にのみ配置できます"
  | .valueObject, .domain => none
  | .valueObject, _ => some "ドメインモデルはドメイン層にのみ配置できます"
  | .domainService, .domain => none
  | .domainService, _ => some "ドメインモデルはドメイン層にのみ配置できます"
  | .repositoryImpl, .infrastructure => none
  | .repositoryImpl, _ => some "リポジトリ実装はインフラストラクチャ層にのみ配置できます"
  | _, _ => none

/-- Claim C2's per-violation-type penalty table. -/
def specPenalty (violationType : String) : Int :=
  match violationType with
  | "CYCLIC_DEPENDENCY" => 30
  | "DEPENDENCY_VIOLATION" => 20
  | "DTO_PURITY_VIOLATION" => 15
  | "PRESENTATION_TO_INFRA" => 15
  | "FAT_SERVICE" => 10
  | _ => 5

/-- A reported cycle is a genuine directed cycle of the stored connections:
at least two entries, the first and last entries coincide, and consecutive
entries are connections of the graph. -/
def CycleIn (s : LayerStructure) (c : List String) : Prop :=
  2 ≤ c.length ∧ c.head? = c.getLast? ∧
    List.Chain' (fun a b => (⟨a, b⟩ : Connection) ∈ s.connections) c

/-- The exact weighted sum of claim C3's formula
`accuracy*0.35 + efficiency*0.25 + maintainability*0.25 + speed*0.15`,
with exact (real-number) arithmetic on the decimal weights. -/
def specWeightedSum (m : Metrics) : ℚ :=
  m.accuracy * (35 / 100) + m.efficiency * (25 / 100) +
    m.maintainability * (25 / 100) + m.speed * (15 / 100)

/-- The range guard of claim C3: all four metrics within `[0,100]`. -/
def metricsInRange (m : Metrics) : Prop :=
  0 ≤ m.accuracy ∧ m.accuracy ≤ 100 ∧
  0 ≤ m.efficiency ∧ m.efficiency ≤ 100 ∧
  0 ≤ m.maintainability ∧ m.maintainability ≤ 100 ∧
  0 ≤ m.speed ∧ m.speed ≤ 100

instance (m : Metrics) : Decidable (metricsInRange m) := by
  unfold metricsInRange; infer_instance

/-! ## Concrete example inputs -/

/-- Three application-layer services wired `A → B → C → A`. -/
def cyc3 : LayerStructure :=
  exec
    [.addBlock .application ⟨"A", "Service1", .service, [], []⟩,
     .addBlock .application ⟨"B", "Service2", .service, [], []⟩,
     .addBlock .application ⟨"C", "Service3", .service, [], []⟩,
     .createConnection "A" "B",
     .createConnection "B" "C",
     .createConnection "C" "A"]

/-- One application-layer service depending on itself. -/
def selfLoop : LayerStructure :=
  exec
    [.addBlock .application ⟨"X", "Service", .service, [], []⟩,
     .createConnection "X" "X"]

/-- A graph whose connection list holds a domain-to-application connection
placed directly, without going through `createConnection`'s guard. -/
def sBad : LayerStructure :=
  { LayerStructure.create with
    blocks :=
      [("d", ⟨⟨"d", "User", .entity, [], []⟩, .domain⟩),
       ("a", ⟨⟨"a", "UserService", .service, [], []⟩, .application⟩)]
    connections := [⟨"d", "a"⟩] }

/-- Two `addBlock` calls that reuse one block id in two different layers. -/
def dupIdOps : List Op :=
  [.addBlock .application ⟨"x", "S1", .service, [], []⟩,
   .addBlock .presentation ⟨"x", "S2", .service, [], []⟩]

/-- A well-formed sequence: distinct ids, one legal connection. -/
def okOps : List Op :=
  [.addBlock .application ⟨"a", "UserService", .service, [], []⟩,
   .addBlock .presentation ⟨"b", "UserView", .uiComponent, [], []⟩,
   .createConnection "b" "a"]

/-- The layer-membership side of claim C9: a block id appearing in a
layer's block set is recorded in the block map with that very layer. -/
def LayerMapConsistent (s : LayerStructure) : Prop :=
  ∀ (l : LayerId) (id : String), id ∈ (s.getLayer l).blocks →
    ∃ b, lookupPair s.blocks id = some ⟨b, l⟩

/-- The connection side of claim C9: both endpoints of every stored
connection are present in the block map. -/
def ConnectionsRegistered (s : LayerStructure) : Prop :=
  ∀ c ∈ s.connections,
    (lookupPair s.blocks c.fromId).isSome ∧ (lookupPair s.blocks c.toId).isSome

/-! ## Helper lemmas -/

theorem lookupPair_map_update {β : Type} (k : String) (v : β) :
    ∀ m : List (String × β), hasKey m k = true →
      lookupPair (m.map fun p => if p.1 = k then (k, v) else p) k = some v := by
  intro m
  induction m with
  | nil => intro h; simp [hasKey, lookupPair] at h
  | cons p rest ih =>
    intro h
    by_cases hk : p.1 = k
    · simp [lookupPair, hk]
    · have h' : hasKey rest k = true := by
        simpa [hasKey, lookupPair, hk] using h
      simpa [lookupPair, hk] using ih h'

theorem lookupPair_map_update_other {β : Type} (k x : String) (v : β)
    (hx : x ≠ k) :
    ∀ m : List (String × β),
      lookupPair (m.map fun p => if p.1 = k then (k, v) else p) x =
        lookupPair m x := by
  intro m
  induction m with
  | nil => simp [lookupPair]
  | cons p rest ih =>
    by_cases hk : p.1 = k
    · simp [lookupPair, hk, Ne.symm hx, ih]
    · by_cases hpx : p.1 = x
      · simp [lookupPair, hk, hpx, hx]
      · simp [lookupPair, hk, hpx, ih]

theorem lookupPair_append_single {β : Type} (k : String) (v : β) :
    ∀ m : List (String × β), hasKey m k = false →
      lookupPair (m ++ [(k, v)]) k = some v := by
  intro m
  induction m with
  | nil => simp [lookupPair]
  | cons p rest ih =>
    intro h
    have hk : p.1 ≠ k := by
      intro hk
      simp [hasKey, lookupPair, hk] at h
    have h' : hasKey rest k = false := by
      simpa [hasKey, lookupPair, hk] using h
    simpa [lookupPair, hk] using ih h'

theorem lookupPair_append_other {β : Type} (k x : String) (v : β)
    (hx : x ≠ k) :
    ∀ m : List (String × β), lookupPair (m ++ [(k, v)]) x = lookupPair m x := by
  intro m
  induction m with
  | nil => simp [lookupPair, Ne.symm hx]
  | cons p rest ih =>
    by_cases hpx : p.1 = x
    · simp [lookupPair, hpx]
    · simp [lookupPair, hpx, ih]

theorem lookupPair_setPair_self {β : Type} (m : List (String × β)) (k : String)
    (v : β) : lookupPair (setPair m k v) k = some v := by
  unfold setPair
  by_cases h : hasKey m k
  · simpa [h] using lookupPair_map_update k v m h
  · have h' : hasKey m k = false := by simpa using h
    simpa [h'] using lookupPair_append_single k v m h'

theorem lookupPair_setPair_other {β : Type} (m : List (String × β))
    (k x : String) (v : β) (hx : x ≠ k) :
    lookupPair (setPair m k v) x = lookupPair m x := by
  unfold setPair
  by_cases h : hasKey m k
  · simpa [h] using lookupPair_map_update_other k x v hx m
  · have h' : hasKey m k = false := by simpa using h
    simpa [h'] using lookupPair_append_other k x v hx m

theorem mem_layerAddBlock (l : Layer) (blockId : String) :
    blockId ∈ (l.addBlock blockId).blocks := by
  unfold Layer.addBlock
  split
  · assumption
  · simp

theorem foldl_sub_eq_sub_sum (p : Violation → Int) :
    ∀ (violations : List Violation) (a : Int),
      violations.foldl (fun score v => score - p v) a =
        a - (violations.map p).sum := by
  intro violations
  induction violations with
  | nil => simp
  | cons v rest ih =>
    intro a
    simp only [List.foldl_cons, List.map_cons, List.sum_cons, ih]
    ring

/-! ### Properties of the binary64 rounding model -/

theorem pow2_eq (n : Nat) : pow2 n = (2 : ℚ) ^ n := by
  unfold pow2; push_cast; ring

theorem pow2_pos (n : Nat) : 0 < pow2 n := by
  rw [pow2_eq]; positivity

theorem pow2_mul_pow2 (a b : Nat) : pow2 a * pow2 b = pow2 (a + b) := by
  rw [pow2_eq, pow2_eq, pow2_eq, ← pow_add]

theorem rne_ge_floor (q : ℚ) : ⌊q⌋ ≤ rne q := by
  simp only [rne]
  split
  · exact le_refl _
  · split
    · omega
    · split <;> omega

theorem rne_nonneg (q : ℚ) (h : 0 ≤ q) : 0 ≤ rne q :=
  le_trans (by simpa using (Int.le_floor (z := 0)).mpr h) (rne_ge_floor q)

theorem rne_le (q : ℚ) : (rne q : ℚ) ≤ q + 1 / 2 := by
  have hf : (⌊q⌋ : ℚ) ≤ q := Int.floor_le q
  simp only [rne]
  split
  case isTrue h => linarith
  case isFalse h =>
    push_neg at h
    split
    case isTrue h' => push_cast; linarith
    case isFalse h' =>
      push_neg at h'
      have : q - (⌊q⌋ : ℚ) = 1 / 2 := le_antisymm h' h
      split <;> push_cast <;> linarith

theorem rne_ge (q : ℚ) : q - 1 / 2 ≤ (rne q : ℚ) := by
  have hf : (⌊q⌋ : ℚ) ≤ q := Int.floor_le q
  have hf' : q < (⌊q⌋ : ℚ) + 1 := Int.lt_floor_add_one q
  simp only [rne]
  split
  case isTrue h => linarith
  case isFalse h =>
    push_neg at h
    split
    case isTrue h' => push_cast; linarith
    case isFalse h' =>
      push_neg at h'
      have : q - (⌊q⌋ : ℚ) = 1 / 2 := le_antisymm h' h
      split <;> push_cast <;> linarith

/-- An integer lower bound survives rounding to nearest. -/
theorem rne_int_le (G : ℤ) (q : ℚ) (h : (G : ℚ) ≤ q) : G ≤ rne q := by
  have h1 : q - 1 / 2 ≤ (rne q : ℚ) := rne_ge q
  have h2 : (G : ℚ) - 1 < (rne q : ℚ) := by linarith
  have : (G : ℚ) < (rne q : ℚ) + 1 := by linarith
  exact_mod_cast Int.lt_add_one_iff.mp (by exact_mod_cast this)

theorem bitlenAux_eq (n : Nat) :
    ∀ (fuel acc : Nat), n ≤ fuel →
      bitlenAux fuel n acc = acc + (if n = 0 then 0 else Nat.log 2 n + 1) := by
  induction n using Nat.strong_induction_on with
  | _ n ih =>
    intro fuel acc hle
    match fuel with
    | 0 =>
      have : n = 0 := Nat.le_zero.mp hle
      simp [bitlenAux, this]
    | fuel + 1 =>
      by_cases hn : n = 0
      · simp [bitlenAux, hn]
      · have hlt : n / 2 < n := Nat.div_lt_self (Nat.pos_of_ne_zero hn) one_lt_two
        have hle' : n / 2 ≤ fuel := by omega
        have step : bitlenAux (fuel + 1) n acc = bitlenAux fuel (n / 2) (acc + 1) := by
          simp [bitlenAux, hn]
        rw [step, ih (n / 2) hlt fuel (acc + 1) hle']
        by_cases h1 : n / 2 = 0
        · have hone : n = 1 := by omega
          simp [h1, hone, Nat.log_one_right]
        · have h2 : 2 ≤ n := by omega
          have hpos : 0 < Nat.log 2 n := Nat.log_pos one_lt_two h2
          rw [if_neg h1, if_neg hn, Nat.log_div_base]
          omega

theorem bitlen_eq (n : Nat) :
    bitlen n = if n = 0 then 0 else Nat.log 2 n + 1 := by
  simpa using bitlenAux_eq n n 0 le_rfl

theorem pow_bitlen_le (n : Nat) (hn : n ≠ 0) : 2 ^ (bitlen n - 1) ≤ n := by
  rw [bitlen_eq, if_neg hn]
  simpa using Nat.pow_log_le_self 2 hn

theorem lt_pow_bitlen (n : Nat) : n < 2 ^ bitlen n := by
  rw [bitlen_eq]
  by_cases hn : n = 0
  · simp [hn]
  · rw [if_neg hn]
    exact Nat.lt_pow_succ_log_self one_lt_two n

theorem bitlen_le_of_lt_pow {n m : Nat} (h : n < 2 ^ m) : bitlen n ≤ m := by
  by_cases hn : n = 0
  · simp [hn, bitlen_eq]
  · by_contra hm
    push_neg at hm
    have h1 : 2 ^ (bitlen n - 1) ≤ n := pow_bitlen_le n hn
    have h2 : m ≤ bitlen n - 1 := by omega
    have : (2 : ℕ) ^ m ≤ 2 ^ (bitlen n - 1) := Nat.pow_le_pow_right (by omega) h2
    omega

theorem lt_bitlen_of_pow_le {n m : Nat} (h : 2 ^ m ≤ n) : m < bitlen n := by
  have h1 : n < 2 ^ bitlen n := lt_pow_bitlen n
  have : (2 : ℕ) ^ m < 2 ^ bitlen n := lt_of_le_of_lt h h1
  exact (Nat.pow_lt_pow_iff_right (by omega)).mp this

theorem flPos_nonneg (q : ℚ) (h : 0 ≤ q) : 0 ≤ flPos q := by
  have hy : 0 ≤ q * pow2 1074 := mul_nonneg h (le_of_lt (pow2_pos 1074))
  simp only [flPos]
  split
  · exact div_nonneg (by exact_mod_cast rne_nonneg _ hy) (pow2_pos 1074).le
  · refine div_nonneg (mul_nonneg ?_ (pow2_pos _).le) (pow2_pos 1074).le
    have hs : 0 ≤ q * pow2 1074 / pow2 (bitlen (⌊q * pow2 1074⌋).toNat - 53) :=
      div_nonneg hy (pow2_pos _).le
    exact_mod_cast rne_nonneg _ hs

theorem fl_of_nonneg (q : ℚ) (h : 0 ≤ q) : fl q = flPos q := by
  unfold fl
  rw [if_neg (not_lt.mpr h)]

/-- The scaled operand of the normal-range branch of `flPos` sits at or
above its binade's lower end. -/
theorem binade_le (q : ℚ) (h : 0 ≤ q) (k : Nat) (hk : 53 < k)
    (hkbit : k = bitlen (⌊q * pow2 1074⌋).toNat) :
    pow2 (k - 1) ≤ q * pow2 1074 := by
  have h74 : (0 : ℚ) < pow2 1074 := pow2_pos 1074
  have hy : 0 ≤ q * pow2 1074 := mul_nonneg h h74.le
  have hfl : (0 : ℤ) ≤ ⌊q * pow2 1074⌋ := Int.floor_nonneg.mpr hy
  have hNnz : (⌊q * pow2 1074⌋).toNat ≠ 0 := by
    intro h0
    rw [h0, bitlen_eq] at hkbit
    simp at hkbit
    omega
  have h1 : 2 ^ (k - 1) ≤ (⌊q * pow2 1074⌋).toNat := by
    rw [hkbit]
    exact pow_bitlen_le _ hNnz
  have h2 : (((⌊q * pow2 1074⌋).toNat : ℤ) : ℚ) ≤ q * pow2 1074 := by
    rw [Int.toNat_of_nonneg hfl]
    exact Int.floor_le _
  calc pow2 (k - 1) = (((2 : ℕ) ^ (k - 1) : ℕ) : ℚ) := rfl
    _ ≤ (((⌊q * pow2 1074⌋).toNat : ℕ) : ℚ) := by exact_mod_cast h1
    _ = (((⌊q * pow2 1074⌋).toNat : ℤ) : ℚ) := by push_cast; ring
    _ ≤ q * pow2 1074 := h2

/-- Upper error bound of the normal-range branch of `flPos`. -/
theorem flPos_else_le (q : ℚ) (h : 0 ≤ q) (k : Nat) (hk : 53 < k)
    (hkbit : k = bitlen (⌊q * pow2 1074⌋).toNat) :
    (rne (q * pow2 1074 / pow2 (k - 53)) : ℚ) * pow2 (k - 53) / pow2 1074 ≤
      q + q / pow2 53 := by
  have h74 : (0 : ℚ) < pow2 1074 := pow2_pos 1074
  have h53 : (0 : ℚ) < pow2 53 := pow2_pos 53
  have hps : (0 : ℚ) < pow2 (k - 53) := pow2_pos (k - 53)
  have hbin : pow2 (k - 1) ≤ q * pow2 1074 := binade_le q h k hk hkbit
  have hgoal2 : pow2 (k - 53) * pow2 53 ≤ 2 * (q * pow2 1074) := by
    rw [pow2_mul_pow2]
    have e1 : k - 53 + 53 = k := by omega
    have e2 : (1 : Nat) + (k - 1) = k := by omega
    have e3 : pow2 k = 2 * pow2 (k - 1) := by
      have := pow2_mul_pow2 1 (k - 1)
      rw [e2] at this
      rw [← this]
      norm_num [pow2_eq]
    rw [e1, e3]
    linarith
  rw [div_le_iff h74]
  have hA : (rne (q * pow2 1074 / pow2 (k - 53)) : ℚ) ≤
      q * pow2 1074 / pow2 (k - 53) + 1 / 2 := rne_le _
  have hA2 : (rne (q * pow2 1074 / pow2 (k - 53)) : ℚ) * pow2 (k - 53) ≤
      q * pow2 1074 + pow2 (k - 53) / 2 := by
    have hmul := mul_le_mul_of_nonneg_right hA hps.le
    calc (rne (q * pow2 1074 / pow2 (k - 53)) : ℚ) * pow2 (k - 53) ≤
        (q * pow2 1074 / pow2 (k - 53) + 1 / 2) * pow2 (k - 53) := hmul
      _ = q * pow2 1074 + pow2 (k - 53) / 2 := by field_simp; ring
  have hhalf : pow2 (k - 53) / 2 ≤ q * pow2 1074 / pow2 53 := by
    rw [div_le_div_iff (by norm_num) h53]
    linarith
  have expand : (q + q / pow2 53) * pow2 1074 =
      q * pow2 1074 + q * pow2 1074 / pow2 53 := by
    field_simp
    ring
  rw [expand]
  linarith

/-- Upper error bound of the rounding: one relative step plus one subnormal
ulp. -/
theorem flPos_le (q : ℚ) (h : 0 ≤ q) :
    flPos q ≤ q + q / pow2 53 + 1 / pow2 1075 := by
  have h74 : (0 : ℚ) < pow2 1074 := pow2_pos 1074
  have h53 : (0 : ℚ) < pow2 53 := pow2_pos 53
  have h75 : pow2 1075 = 2 * pow2 1074 := by
    have := pow2_mul_pow2 1 1074
    rw [← this]
    norm_num [pow2_eq]
  have hq53 : 0 ≤ q / pow2 53 := div_nonneg h h53.le
  simp only [flPos]
  split
  · calc (rne (q * pow2 1074) : ℚ) / pow2 1074
        ≤ (q * pow2 1074 + 1 / 2) / pow2 1074 :=
          (div_le_div_iff_of_pos_right h74).mpr (rne_le _)
      _ = q + 1 / pow2 1075 := by
          rw [h75]
          field_simp
          ring
      _ ≤ q + q / pow2 53 + 1 / pow2 1075 := by linarith
  · rename_i hk
    push_neg at hk
    have := flPos_else_le q h _ hk rfl
    have h75pos : (0 : ℚ) < pow2 1075 := pow2_pos 1075
    have : (0 : ℚ) ≤ 1 / pow2 1075 := by positivity
    linarith [flPos_else_le q h _ hk rfl]

/-- Lower error bound of the normal-range branch of `flPos`. -/
theorem flPos_else_ge (q : ℚ) (h : 0 ≤ q) (k : Nat) (hk : 53 < k)
    (hkbit : k = bitlen (⌊q * pow2 1074⌋).toNat) :
    q - q / pow2 53 ≤
      (rne (q * pow2 1074 / pow2 (k - 53)) : ℚ) * pow2 (k - 53) / pow2 1074 := by
  have h74 : (0 : ℚ) < pow2 1074 := pow2_pos 1074
  have h53 : (0 : ℚ) < pow2 53 := pow2_pos 53
  have hps : (0 : ℚ) < pow2 (k - 53) := pow2_pos (k - 53)
  have hbin : pow2 (k - 1) ≤ q * pow2 1074 := binade_le q h k hk hkbit
  have hgoal2 : pow2 (k - 53) * pow2 53 ≤ 2 * (q * pow2 1074) := by
    rw [pow2_mul_pow2]
    have e1 : k - 53 + 53 = k := by omega
    have e2 : (1 : Nat) + (k - 1) = k := by omega
    have e3 : pow2 k = 2 * pow2 (k - 1) := by
      have := pow2_mul_pow2 1 (k - 1)
      rw [e2] at this
      rw [← this]
      norm_num [pow2_eq]
    rw [e1, e3]
    linarith
  rw [le_div_iff h74]
  have hA : q * pow2 1074 / pow2 (k - 53) - 1 / 2 ≤
      (rne (q * pow2 1074 / pow2 (k - 53)) : ℚ) := rne_ge _
  have hA2 : q * pow2 1074 - pow2 (k - 53) / 2 ≤
      (rne (q * pow2 1074 / pow2 (k - 53)) : ℚ) * pow2 (k - 53) := by
    have hmul := mul_le_mul_of_nonneg_right hA hps.le
    calc q * pow2 1074 - pow2 (k - 53) / 2
        = (q * pow2 1074 / pow2 (k - 53) - 1 / 2) * pow2 (k - 53) := by
          field_simp
          ring
      _ ≤ (rne (q * pow2 1074 / pow2 (k - 53)) : ℚ) * pow2 (k - 53) := hmul
  have hhalf : pow2 (k - 53) / 2 ≤ q * pow2 1074 / pow2 53 := by
    rw [div_le_div_iff (by norm_num) h53]
    linarith
  have expand : (q - q / pow2 53) * pow2 1074 =
      q * pow2 1074 - q * pow2 1074 / pow2 53 := by
    field_simp
    ring
  rw [expand]
  linarith

/-- Lower error bound of the rounding. -/
theorem flPos_ge (q : ℚ) (h : 0 ≤ q) :
    q - q / pow2 53 - 1 / pow2 1075 ≤ flPos q := by
  have h74 : (0 : ℚ) < pow2 1074 := pow2_pos 1074
  have h53 : (0 : ℚ) < pow2 53 := pow2_pos 53
  have h75 : pow2 1075 = 2 * pow2 1074 := by
    have := pow2_mul_pow2 1 1074
    rw [← this]
    norm_num [pow2_eq]
  have hq53 : 0 ≤ q / pow2 53 := div_nonneg h h53.le
  simp only [flPos]
  split
  · calc q - q / pow2 53 - 1 / pow2 1075
        ≤ q - 1 / pow2 1075 := by linarith
      _ = (q * pow2 1074 - 1 / 2) / pow2 1074 := by
          rw [h75]
          field_simp
          ring
      _ ≤ (rne (q * pow2 1074) : ℚ) / pow2 1074 :=
          (div_le_div_iff_of_pos_right h74).mpr (rne_ge _)
  · rename_i hk
    push_neg at hk
    have h75pos : (0 : ℚ) < pow2 1075 := pow2_pos 1075
    have hge := flPos_else_ge q h _ hk rfl
    have : (0 : ℚ) ≤ 1 / pow2 1075 := by positivity
    linarith

/-- Rounding never drops a value from at-or-above `100.5` to below it:
`100.5` is representable, and rounding to nearest is monotone through it. -/
theorem flPos_ge_of_ge_halfway (q : ℚ) (h : (201 : ℚ) / 2 ≤ q) :
    (201 : ℚ) / 2 ≤ flPos q := by
  have h0 : (0 : ℚ) ≤ q := by linarith
  have h74 : (0 : ℚ) < pow2 1074 := pow2_pos 1074
  by_cases hbig : pow2 52 ≤ q
  · -- far above the boundary: the coarse error bound is enough
    have h52 : pow2 52 = (4503599627370496 : ℚ) := by decide
    have h53 : pow2 53 = (9007199254740992 : ℚ) := by decide
    have h75 : (1 : ℚ) / pow2 1075 ≤ 1 := by
      rw [div_le_one (pow2_pos 1075)]
      calc (1 : ℚ) ≤ pow2 0 := by decide
        _ ≤ pow2 1075 := by
          rw [pow2_eq, pow2_eq]
          exact pow_le_pow_right₀ (by norm_num) (by omega)
    have hge := flPos_ge q h0
    have h2le : (2 : ℚ) ≤ pow2 53 := by rw [h53]; norm_num
    have hdiv : q / pow2 53 ≤ q / 2 :=
      div_le_div_of_nonneg_left h0 (by norm_num) h2le
    rw [h52] at hbig
    linarith
  · -- within the normal binade range: the grid below `q` contains `100.5`
    push_neg at hbig
    simp only [flPos]
    split
    · -- impossible: the scaled value is far above `2 ^ 53`
      rename_i hkle
      exfalso
      have hbin : (2 : ℕ) ^ 1080 ≤ (⌊q * pow2 1074⌋).toNat := by
        have hq : (((2 : ℕ) ^ 1080 : ℕ) : ℚ) ≤ q * pow2 1074 := by
          calc (((2 : ℕ) ^ 1080 : ℕ) : ℚ) = pow2 1080 := rfl
            _ ≤ (201 : ℚ) / 2 * pow2 1074 := by
                have : pow2 1080 = 64 * pow2 1074 := by
                  have := pow2_mul_pow2 6 1074
                  rw [show (6 : ℕ) + 1074 = 1080 from rfl] at this
                  rw [← this]
                  norm_num [show pow2 6 = (64 : ℚ) by decide]
                rw [this]
                nlinarith [h74]
            _ ≤ q * pow2 1074 := by nlinarith [h74]
        have hfl : ((2 : ℕ) ^ 1080 : ℤ) ≤ ⌊q * pow2 1074⌋ := by
          rw [Int.le_floor]
          exact_mod_cast hq
        omega
      have := lt_bitlen_of_pow_le hbin
      omega
    · rename_i hkle
      push_neg at hkle
      -- name the binade
      set k := bitlen (⌊q * pow2 1074⌋).toNat with hkdef
      have hk1126 : k ≤ 1126 := by
        apply bitlen_le_of_lt_pow
        have hq : q * pow2 1074 < pow2 1126 := by
          have : pow2 1126 = pow2 52 * pow2 1074 := by
            rw [pow2_mul_pow2]
          rw [this]
          exact mul_lt_mul_of_pos_right hbig h74
        have : ⌊q * pow2 1074⌋ < ((2 : ℕ) ^ 1126 : ℤ) := by
          rw [Int.floor_lt]
          exact_mod_cast hq
        omega
      have hs1073 : k - 53 ≤ 1073 := by omega
      have hps : (0 : ℚ) < pow2 (k - 53) := pow2_pos (k - 53)
      have hGle : ((201 * 2 ^ (1073 - (k - 53)) : ℤ) : ℚ) ≤
          q * pow2 1074 / pow2 (k - 53) := by
        rw [le_div_iff hps]
        have hsplit : pow2 1074 = 2 * pow2 (1073 - (k - 53)) * pow2 (k - 53) := by
          rw [mul_assoc, pow2_mul_pow2]
          have e : (1073 - (k - 53)) + (k - 53) = 1073 := by omega
          rw [e]
          have := pow2_mul_pow2 1 1073
          rw [show (1 : ℕ) + 1073 = 1074 from rfl] at this
          rw [← this]
          norm_num [show pow2 1 = (2 : ℚ) by decide]
        have hcast : ((201 * 2 ^ (1073 - (k - 53)) : ℤ) : ℚ) =
            201 * pow2 (1073 - (k - 53)) := by
          rw [pow2_eq]
          push_cast
          ring
        rw [hcast]
        calc 201 * pow2 (1073 - (k - 53)) * pow2 (k - 53)
            = 201 / 2 * (2 * pow2 (1073 - (k - 53)) * pow2 (k - 53)) := by ring
          _ = 201 / 2 * pow2 1074 := by rw [← hsplit]
          _ ≤ q * pow2 1074 := by nlinarith [h74]
      have hrne := rne_int_le _ _ hGle
      have hstep : ((201 * 2 ^ (1073 - (k - 53)) : ℤ) : ℚ) ≤
          (rne (q * pow2 1074 / pow2 (k - 53)) : ℚ) := by exact_mod_cast hrne
      rw [le_div_iff h74]
      have hcast2 : ((201 * 2 ^ (1073 - (k - 53)) : ℤ) : ℚ) * pow2 (k - 53) =
          201 / 2 * pow2 1074 := by
        have hsplit : pow2 1074 = 2 * pow2 (1073 - (k - 53)) * pow2 (k - 53) := by
          rw [mul_assoc, pow2_mul_pow2]
          have e : (1073 - (k - 53)) + (k - 53) = 1073 := by omega
          rw [e]
          have := pow2_mul_pow2 1 1073
          rw [show (1 : ℕ) + 1073 = 1074 from rfl] at this
          rw [← this]
          norm_num [show pow2 1 = (2 : ℚ) by decide]
        rw [hsplit]
        simp only [pow2_eq]
        push_cast
        ring
      calc (201 : ℚ) / 2 * pow2 1074
          = ((201 * 2 ^ (1073 - (k - 53)) : ℤ) : ℚ) * pow2 (k - 53) := hcast2.symm
        _ ≤ (rne (q * pow2 1074 / pow2 (k - 53)) : ℚ) * pow2 (k - 53) :=
            mul_le_mul_of_nonneg_right hstep hps.le

theorem fl_nonneg (x : ℚ) (hx : 0 ≤ x) : 0 ≤ fl x := by
  rw [fl_of_nonneg x hx]
  exact flPos_nonneg x hx

/-- Coarse absolute error bound for the values that occur in the weighted
sum: rounding a value of at most `110` adds less than `1/1000`. -/
theorem fl_le_of_le (x c : ℚ) (hx : 0 ≤ x) (hc : x ≤ c) (hc110 : c ≤ 110) :
    fl x ≤ c + 1 / 1000 := by
  have h53 : (0 : ℚ) < pow2 53 := pow2_pos 53
  have hdiv : x / pow2 53 ≤ 110 / pow2 53 :=
    (div_le_div_iff_of_pos_right h53).mpr (by linarith)
  have herr : (110 : ℚ) / pow2 53 + 1 / pow2 1075 ≤ 1 / 1000 := by decide
  have := flPos_le x hx
  rw [fl_of_nonneg x hx]
  linarith

theorem jsRound_nonneg (q : ℚ) (h : 0 ≤ q) : 0 ≤ jsRound q :=
  Int.le_floor.mpr (by push_cast; linarith)

theorem jsRound_le_100 (q : ℚ) (h : q < 201 / 2) : jsRound q ≤ 100 := by
  have : ⌊q + 1 / 2⌋ < (101 : ℤ) := Int.floor_lt.mpr (by push_cast; linarith)
  unfold jsRound
  omega

theorem jsAdd_nonneg (a b : ℚ) (ha : 0 ≤ a) (hb : 0 ≤ b) : 0 ≤ jsAdd a b :=
  fl_nonneg (a + b) (by linarith)

theorem jsAdd_le_of_le (a b c : ℚ) (ha : 0 ≤ a) (hb : 0 ≤ b)
    (hab : a + b ≤ c) (h110 : c ≤ 110) : jsAdd a b ≤ c + 1 / 1000 :=
  fl_le_of_le (a + b) c (by linarith) hab h110

/-- Under in-range metrics, the double-evaluated weighted sum stays within
`[0, 100.5)`, so its rounding is an admissible score. -/
theorem weightedSum_bounds (m : Metrics) (h : metricsInRange m) :
    0 ≤ weightedSum m ∧ weightedSum m < 201 / 2 := by
  obtain ⟨h1, h2, h3, h4, h5, h6, h7, h8⟩ := h
  have wAle : weightAccuracy ≤ 7 / 20 := by decide
  have wAnn : (0 : ℚ) ≤ weightAccuracy := by decide
  have wEeq : weightEfficiency = 1 / 4 := by decide
  have wMeq : weightMaintainability = 1 / 4 := by decide
  have wSle : weightSpeed ≤ 3 / 20 := by decide
  have wSnn : (0 : ℚ) ≤ weightSpeed := by decide
  have hp1n : 0 ≤ m.accuracy * weightAccuracy := mul_nonneg h1 wAnn
  have hp1u : m.accuracy * weightAccuracy ≤ 35 := by nlinarith
  have hp2n : 0 ≤ m.efficiency * weightEfficiency := by rw [wEeq]; linarith
  have hp2u : m.efficiency * weightEfficiency ≤ 25 := by rw [wEeq]; nlinarith
  have hp3n : 0 ≤ m.maintainability * weightMaintainability := by
    rw [wMeq]; linarith
  have hp3u : m.maintainability * weightMaintainability ≤ 25 := by
    rw [wMeq]; nlinarith
  have hp4n : 0 ≤ m.speed * weightSpeed := mul_nonneg h7 wSnn
  have hp4u : m.speed * weightSpeed ≤ 15 := by nlinarith
  have q1n : 0 ≤ jsMul m.accuracy weightAccuracy :=
    fl_nonneg (m.accuracy * weightAccuracy) hp1n
  have q1u : jsMul m.accuracy weightAccuracy ≤ 35 + 1 / 1000 :=
    fl_le_of_le (m.accuracy * weightAccuracy) 35 hp1n hp1u (by norm_num)
  have q2n : 0 ≤ jsMul m.efficiency weightEfficiency :=
    fl_nonneg (m.efficiency * weightEfficiency) hp2n
  have q2u : jsMul m.efficiency weightEfficiency ≤ 25 + 1 / 1000 :=
    fl_le_of_le (m.efficiency * weightEfficiency) 25 hp2n hp2u (by norm_num)
  have q3n : 0 ≤ jsMul m.maintainability weightMaintainability :=
    fl_nonneg (m.maintainability * weightMaintainability) hp3n
  have q3u : jsMul m.maintainability weightMaintainability ≤ 25 + 1 / 1000 :=
    fl_le_of_le (m.maintainability * weightMaintainability) 25 hp3n hp3u
      (by norm_num)
  have q4n : 0 ≤ jsMul m.speed weightSpeed :=
    fl_nonneg (m.speed * weightSpeed) hp4n
  have q4u : jsMul m.speed weightSpeed ≤ 15 + 1 / 1000 :=
    fl_le_of_le (m.speed * weightSpeed) 15 hp4n hp4u (by norm_num)
  have s1n : 0 ≤ jsAdd (jsMul m.accuracy weightAccuracy)
      (jsMul m.efficiency weightEfficiency) :=
    jsAdd_nonneg _ _ q1n q2n
  have s1u : jsAdd (jsMul m.accuracy weightAccuracy)
      (jsMul m.efficiency weightEfficiency) ≤ 60 + 3 / 1000 := by
    have hstep := jsAdd_le_of_le _ _ (60 + 2 / 1000) q1n q2n (by linarith)
      (by norm_num)
    linarith
  have s2n : 0 ≤ jsAdd (jsAdd (jsMul m.accuracy weightAccuracy)
      (jsMul m.efficiency weightEfficiency))
      (jsMul m.maintainability weightMaintainability) :=
    jsAdd_nonneg _ _ s1n q3n
  have s2u : jsAdd (jsAdd (jsMul m.accuracy weightAccuracy)
      (jsMul m.efficiency weightEfficiency))
      (jsMul m.maintainability weightMaintainability) ≤ 85 + 5 / 1000 := by
    have hstep := jsAdd_le_of_le _ _ (85 + 4 / 1000) s1n q3n (by linarith)
      (by norm_num)
    linarith
  have s3n : 0 ≤ weightedSum m := jsAdd_nonneg _ _ s2n q4n
  have s3u : weightedSum m < 201 / 2 := by
    have hstep := jsAdd_le_of_le _ _ (100 + 6 / 1000) s2n q4n (by linarith)
      (by norm_num)
    have hdef : weightedSum m = jsAdd (jsAdd (jsAdd
        (jsMul m.accuracy weightAccuracy) (jsMul m.efficiency weightEfficiency))
        (jsMul m.maintainability weightMaintainability))
        (jsMul m.speed weightSpeed) := rfl
    rw [hdef]
    linarith
  exact ⟨s3n, s3u⟩

/-! ## C3: the weighted composite score -/

/-- C3 counterexample.  At metrics `{1, 0, 0, 41}` the exact weighted sum is
`6.5`, so the claim's round-half-up formula yields `7`; the code evaluates
the sum in binary64 arithmetic, obtaining a value just below `6.5`
(`6.4999999999999996`), and returns the score `6`. -/
theorem calculate_rounding_counterexample :
    Score.calculate ⟨1, 0, 0, 41⟩ = .ok ⟨6⟩ ∧
    specWeightedSum ⟨1, 0, 0, 41⟩ = 13 / 2 ∧
    jsRound (specWeightedSum ⟨1, 0, 0, 41⟩) = 7 := by
  refine ⟨by decide, by decide, by decide⟩

/-- C3 amended.  For in-range metrics `Score.calculate` returns the
round-half-up of the binary64 evaluation of
`accuracy*0.35 + efficiency*0.25 + maintainability*0.25 + speed*0.15`
(which agrees with the exact formula at the four listed points: 88, 0, 100
and 83), and any metric outside `[0,100]` fails with the out-of-range
message before any score is computed. -/
theorem calculate_weighted_double :
    (∀ m : Metrics,
      Score.calculate m =
        if metricsInRange m then
          Res.ok ⟨((jsRound (weightedSum m) : ℤ) : ℚ)⟩
        else Res.fail "メトリクスの値は0以上100以下である必要があります") ∧
    Score.calculate ⟨100, 80, 90, 70⟩ = .ok ⟨88⟩ ∧
    Score.calculate ⟨0, 0, 0, 0⟩ = .ok ⟨0⟩ ∧
    Score.calculate ⟨100, 100, 100, 100⟩ = .ok ⟨100⟩ ∧
    Score.calculate ⟨85, 75, 82, 90⟩ = .ok ⟨83⟩ := by
  refine ⟨?_, by decide, by decide, by decide, by decide⟩
  intro m
  by_cases h : metricsInRange m
  · obtain ⟨hlo, hhi⟩ := weightedSum_bounds m h
    have hr0 : 0 ≤ jsRound (weightedSum m) := jsRound_nonneg _ hlo
    have hr100 : jsRound (weightedSum m) ≤ 100 := jsRound_le_100 _ hhi
    have hcopy := h
    obtain ⟨h1, h2, h3, h4, h5, h6, h7, h8⟩ := hcopy
    rw [if_pos h]
    simp only [Score.calculate, Score.create]
    rw [if_neg (by push_neg; exact ⟨h1, h2⟩), if_neg (by push_neg; exact ⟨h3, h4⟩),
      if_neg (by push_neg; exact ⟨h5, h6⟩), if_neg (by push_neg; exact ⟨h7, h8⟩),
      if_neg]
    push_neg
    constructor
    · exact_mod_cast hr0
    · exact_mod_cast hr100
  · rw [if_neg h]
    simp only [Score.calculate]
    by_cases c1 : m.accuracy < 0 ∨ 100 < m.accuracy
    · rw [if_pos c1]
    · rw [if_neg c1]
      by_cases c2 : m.efficiency < 0 ∨ 100 < m.efficiency
      · rw [if_pos c2]
      · rw [if_neg c2]
        by_cases c3 : m.maintainability < 0 ∨ 100 < m.maintainability
        · rw [if_pos c3]
        · rw [if_neg c3]
          by_cases c4 : m.speed < 0 ∨ 100 < m.speed
          · rw [if_pos c4]
          · exfalso
            apply h
            push_neg at c1 c2 c3 c4
            exact ⟨c1.1, c1.2, c2.1, c2.2, c3.1, c3.2, c4.1, c4.2⟩

/-! ## C8: sequential bonus application -/

/-- C8 counterexample.  With the score `3` and the bonus multiplier
`0.16666666666666666` (the double closest to one sixth, whose exact value
is `6004799503160661 / 2^55`), the exact product is just below `1/2`, so
the claim's `round(value * multiplier)` is `0`; the code's double
multiplication rounds the product up to exactly `1/2`, and `Math.round`
then returns `1`. -/
theorem addBonus_rounding_counterexample :
    Score.addBonus ⟨3⟩ ⟨.noHints, 6004799503160661 / pow2 55⟩ = .ok ⟨1⟩ ∧
    jsRound ((3 : ℚ) * (6004799503160661 / pow2 55)) = 0 := by
  refine ⟨by decide, by decide⟩

/-- C8 amended.  `addBonus` returns a new `Score` whose value is the
round-half-up of the binary64 product `value ⊗ multiplier` whenever that
rounded value lies in `[0,100]` (the checked constructor rejects anything
else); chaining is left-to-right with re-rounding at each step, and the
double product agrees with the exact `value * multiplier` on the claim's
example: a score of 80 after two successive 1.05 bonuses is
80 → 84 → 88.2 → 88. -/
theorem addBonus_double_rounding :
    (∀ (s : Score) (b : Bonus),
      0 ≤ jsRound (jsMul s.value b.multiplier) →
      jsRound (jsMul s.value b.multiplier) ≤ 100 →
      s.addBonus b = .ok ⟨((jsRound (jsMul s.value b.multiplier) : ℤ) : ℚ)⟩) ∧
    Score.addBonus ⟨80⟩ ⟨.noHints, fl (105 / 100)⟩ = .ok ⟨84⟩ ∧
    Score.addBonus ⟨84⟩ ⟨.noAntipatterns, fl (105 / 100)⟩ = .ok ⟨88⟩ ∧
    jsMul (84 : ℚ) (fl (105 / 100)) = 6206523236469965 / pow2 46 := by
  refine ⟨?_, by decide, by decide, by decide⟩
  intro s b h1 h2
  unfold Score.addBonus Score.create
  rw [if_neg]
  push_neg
  constructor
  · exact_mod_cast h1
  · exact_mod_cast h2

/-- C8 witness: the first bonus application of the chain, through the
amended theorem. -/
theorem addBonus_double_rounding_witness :
    Score.addBonus ⟨80⟩ ⟨.noHints, fl (105 / 100)⟩ =
      .ok ⟨((jsRound (jsMul (80 : ℚ) (fl (105 / 100))) : ℤ) : ℚ)⟩ :=
  addBonus_double_rounding.1 ⟨80⟩ ⟨.noHints, fl (105 / 100)⟩ (by decide) (by decide)

/-! ## C10: no clamping in `addBonus` -/

/-- C10.  The `Score` constructor rejects every value outside `[0,100]`
with an error, and `addBonus` does not clamp: whenever the round-half-up of
the exact product `value * multiplier` exceeds 100, the bonus application
fails with the constructor's range error (the double product rounds to at
least the same half-way boundary, so the computed score would exceed 100
too). -/
theorem addBonus_no_clamp :
    (∀ value : ℚ, (value < 0 ∨ 100 < value) →
      Score.create value = .fail "スコアは0以上100以下である必要があります") ∧
    (∀ (s : Score) (b : Bonus), 100 < jsRound (s.value * b.multiplier) →
      s.addBonus b = .fail "スコアは0以上100以下である必要があります") := by
  constructor
  · intro value hv
    unfold Score.create
    rw [if_pos hv]
  · intro s b h
    have h101 : (101 : ℤ) ≤ ⌊s.value * b.multiplier + 1 / 2⌋ := h
    have hq : (201 : ℚ) / 2 ≤ s.value * b.multiplier := by
      have := Int.le_floor.mp h101
      push_cast at this
      linarith
    have h0 : 0 ≤ s.value * b.multiplier := by linarith
    have hfl : (201 : ℚ) / 2 ≤ jsMul s.value b.multiplier := by
      unfold jsMul
      rw [fl_of_nonneg _ h0]
      exact flPos_ge_of_ge_halfway _ hq
    have hr : 100 < jsRound (jsMul s.value b.multiplier) := by
      have : (101 : ℤ) ≤ ⌊jsMul s.value b.multiplier + 1 / 2⌋ :=
        Int.le_floor.mpr (by push_cast; linarith)
      unfold jsRound
      omega
    unfold Score.addBonus Score.create
    rw [if_pos (Or.inr (by exact_mod_cast hr))]

/-- C10 witness: score 100 with the 1.05 bonus; the exact product is
`105.0000000000000044…`, its round-half-up is 105, and the application
fails. -/
theorem addBonus_no_clamp_witness :
    Score.addBonus ⟨100⟩ ⟨.noHints, fl (105 / 100)⟩ =
      .fail "スコアは0以上100以下である必要があります" :=
  addBonus_no_clamp.2 ⟨100⟩ ⟨.noHints, fl (105 / 100)⟩ (by decide)

/-! ## C1: `createConnection` and the directional legality table -/

/-- C1.  For every graph state and every pair of block ids,
`createConnection` fails with the not-found message when either endpoint is
unregistered (before any direction rule); otherwise it returns the failure
of the first violated rule of the claim's five-rule table, and for every
other directed pair (same-layer pairs and self-loops included) it succeeds
and appends the connection to the connection list, leaving everything else
unchanged. -/
theorem createConnection_follows_direction_table (s : LayerStructure)
    (fromId toId : String) :
    s.createConnection fromId toId =
      match s.lookupBlock fromId, s.lookupBlock toId with
      | some fromBlock, some toBlock =>
        match specDirectionError fromBlock.layerId toBlock.layerId with
        | some e => (Res.fail e, s)
        | none =>
          (Res.ok ⟨fromId, toId⟩,
            { s with connections := s.connections ++ [⟨fromId, toId⟩] })
      | _, _ => (Res.fail "指定されたブロックが存在しません", s) := by
  unfold LayerStructure.createConnection
  cases hf : s.lookupBlock fromId with
  | none => rfl
  | some fromBlock =>
    cases ht : s.lookupBlock toId with
    | none => rfl
    | some toBlock =>
      obtain ⟨fb, fromLayer⟩ := fromBlock
      obtain ⟨tb, toLayer⟩ := toBlock
      cases fromLayer <;> cases toLayer <;> rfl

/-! ## C2: the violation-penalty score -/

/-- C2.  The violation-penalty score is 100 minus the sum of the fixed
per-type penalties over all violations, clamped to `[0,100]` once after all
subtractions; in particular a single cyclic-dependency violation scores
exactly 70. -/
theorem calculateScore_penalty_formula :
    (∀ violations : List Violation,
      calculateScore violations =
        max 0 (min 100 (100 - (violations.map fun v => specPenalty v.type).sum))) ∧
    calculateScore [⟨"CYCLIC_DEPENDENCY", "循環依存が検出されました: A -> B -> A"⟩] = 70 := by
  constructor
  · intro violations
    unfold calculateScore
    have hbody :
        (fun (score : Int) (violation : Violation) =>
          match violation.type with
          | "CYCLIC_DEPENDENCY" => score - 30
          | "DEPENDENCY_VIOLATION" => score - 20
          | "DTO_PURITY_VIOLATION" => score - 15
          | "PRESENTATION_TO_INFRA" => score - 15
          | "FAT_SERVICE" => score - 10
          | _ => score - 5) =
        fun (score : Int) (v : Violation) => score - specPenalty v.type := by
      funext score v
      unfold specPenalty
      split <;> rfl
    rw [hbody, foldl_sub_eq_sub_sum]
  · decide

/-! ## C5: the dependency-direction rule of the rule engine -/

/-- C5 counterexample.  `sBad` stores a domain-to-application connection
placed without going through `createConnection`'s guard; the pair is
illegal under the §4.1 table, the dependency-direction rule is enabled in
the default configuration, and yet the rule engine reports no violation at
all (and full marks): the rule's implementation returns the empty list
unconditionally. -/
theorem dependencyDirectionRule_counterexample :
    (sBad.lookupBlock "d").map BlockEntry.layerId = some .domain ∧
    (sBad.lookupBlock "a").map BlockEntry.layerId = some .application ∧
    (⟨"d", "a"⟩ : Connection) ∈ sBad.connections ∧
    specDirectionError .domain .application ≠ none ∧
    (DEFAULT_RULE_CONFIGS .noDependencyViolation).enabled = true ∧
    validateRule DEFAULT_RULE_CONFIGS .noDependencyViolation sBad = [] ∧
    validatorValidate [.noDependencyViolation] DEFAULT_RULE_CONFIGS sBad =
      { isValid := true, violations := [], score := some 100 } := by
  decide

/-- C5 amended.  The dependency-direction rule is a stub: for every graph
state and every configuration, `validateRule` on `NoDependencyViolation`
(via `validateDependencyDirection`) produces the empty violation list,
whatever connections are stored; the §4.1 legality table is enforced only
by `createConnection`. -/
theorem dependencyDirectionRule_always_empty :
    ∀ (cfg : ValidationRule → RuleConfig) (s : LayerStructure),
      validateRule cfg .noDependencyViolation s = [] ∧
      validateDependencyDirection s = [] :=
  fun _ _ => ⟨rfl, rfl⟩

/-! ## C6: `addBlock` and block-type/layer compatibility -/

/-- C6.  `addBlock` succeeds exactly when the block's type is compatible
with the target layer (per the claim's table, embodied in
`specPlacementError`); on success the block id becomes a member of that
layer's block set and the block map entry records the block with that
layer, and on incompatibility the call fails with the matching message and
the state is unchanged. -/
theorem addBlock_placement_table (s : LayerStructure) (layerId : LayerId)
    (b : CodeBlock) :
    match specPlacementError b.type layerId with
    | some e => s.addBlock layerId b = (Res.fail e, s)
    | none =>
      (s.addBlock layerId b).1 = Res.ok () ∧
      b.id ∈ (((s.addBlock layerId b).2).getLayer layerId).blocks ∧
      ((s.addBlock layerId b).2).lookupBlock b.id = some ⟨b, layerId⟩ := by
  have hmem := fun l => mem_layerAddBlock l b.id
  have hset := fun m => lookupPair_setPair_self m b.id (⟨b, layerId⟩ : BlockEntry)
  cases hb : b.type <;> cases layerId <;>
    simp_all [LayerStructure.addBlock, LayerStructure.validateBlockPlacement,
      CodeBlock.isUIComponent, CodeBlock.isDomainModel, CodeBlock.isEntity,
      CodeBlock.isValueObject, CodeBlock.isInfrastructure, specPlacementError,
      LayerStructure.getLayer, LayerStructure.setLayer, LayerStructure.lookupBlock]

/-! ## C7: failed mutations leave the graph unchanged -/

/-- C7.  Both guarded mutations are all-or-nothing: whenever `addBlock`
fails (placement violation) or `createConnection` fails (not-found or
direction violation), the returned graph state is exactly the input
state. -/
theorem failed_mutations_preserve_state (s : LayerStructure)
    (layerId : LayerId) (b : CodeBlock) (fromId toId : String) :
    ((s.addBlock layerId b).1.isFailure = true → (s.addBlock layerId b).2 = s) ∧
    ((s.createConnection fromId toId).1.isFailure = true →
      (s.createConnection fromId toId).2 = s) := by
  constructor
  · unfold LayerStructure.addBlock
    split
    · intro _; rfl
    · intro h; simp [Res.isFailure, Res.isSuccess] at h
  · unfold LayerStructure.createConnection
    split
    · split
      · intro _; rfl
      · intro h; simp [Res.isFailure, Res.isSuccess] at h
    · intro _; rfl

/-- C7 witness: a placement violation (a UI component into the domain
layer) and a not-found connection on the fresh graph both fail and both
leave the graph equal to the fresh state. -/
theorem failed_mutations_preserve_state_witness :
    ((LayerStructure.create.addBlock .domain
        ⟨"u", "V", .uiComponent, [], []⟩).1.isFailure = true ∧
      (LayerStructure.create.addBlock .domain
        ⟨"u", "V", .uiComponent, [], []⟩).2 = LayerStructure.create) ∧
    ((LayerStructure.create.createConnection "a" "b").1.isFailure = true ∧
      (LayerStructure.create.createConnection "a" "b").2 = LayerStructure.create) :=
  ⟨⟨by decide,
    (failed_mutations_preserve_state LayerStructure.create .domain
      ⟨"u", "V", .uiComponent, [], []⟩ "a" "b").1 (by decide)⟩,
   ⟨by decide,
    (failed_mutations_preserve_state LayerStructure.create .domain
      ⟨"u", "V", .uiComponent, [], []⟩ "a" "b").2 (by decide)⟩⟩


/-! ## C4: cycle detection -/

theorem lookupAdj_map_other (c : Connection) (x : String) (hx : x ≠ c.fromId) :
    ∀ adj : List (String × List String),
      lookupAdj
        (adj.map fun p => if p.1 = c.fromId then (p.1, p.2 ++ [c.toId]) else p) x =
      lookupAdj adj x := by
  intro adj
  induction adj with
  | nil => rfl
  | cons p rest ih =>
    by_cases hp : p.1 = c.fromId
    · have hpx : p.1 ≠ x := by rw [hp]; exact fun h => hx h.symm
      simp [lookupAdj, hp, hpx, Ne.symm hx, ih]
    · by_cases hpx : p.1 = x
      · simp [lookupAdj, hp, hpx, hx]
      · simp [lookupAdj, hp, hpx, ih]

theorem lookupAdj_map_same (c : Connection) :
    ∀ adj : List (String × List String), hasKey adj c.fromId = true →
      lookupAdj
        (adj.map fun p => if p.1 = c.fromId then (p.1, p.2 ++ [c.toId]) else p)
        c.fromId =
      lookupAdj adj c.fromId ++ [c.toId] := by
  intro adj
  induction adj with
  | nil => intro h; simp [hasKey, lookupPair] at h
  | cons p rest ih =>
    intro h
    by_cases hp : p.1 = c.fromId
    · simp [lookupAdj, hp]
    · have h' : hasKey rest c.fromId = true := by
        simpa [hasKey, lookupPair, hp] using h
      simp [lookupAdj, hp, ih h']

theorem lookupAdj_append_other (c : Connection) (x : String) (hx : x ≠ c.fromId) :
    ∀ adj : List (String × List String),
      lookupAdj (adj ++ [(c.fromId, [c.toId])]) x = lookupAdj adj x := by
  intro adj
  induction adj with
  | nil => simp [lookupAdj, Ne.symm hx]
  | cons p rest ih =>
    by_cases hpx : p.1 = x
    · simp [lookupAdj, hpx]
    · simp [lookupAdj, hpx, ih]

theorem lookupAdj_append_same (c : Connection) :
    ∀ adj : List (String × List String), hasKey adj c.fromId = false →
      lookupAdj (adj ++ [(c.fromId, [c.toId])]) c.fromId =
        lookupAdj adj c.fromId ++ [c.toId] := by
  intro adj
  induction adj with
  | nil => intro _; simp [lookupAdj]
  | cons p rest ih =>
    intro h
    have hp : p.1 ≠ c.fromId := by
      intro hp
      simp [hasKey, lookupPair, hp] at h
    have h' : hasKey rest c.fromId = false := by
      simpa [hasKey, lookupPair, hp] using h
    simp [lookupAdj, hp, ih h']

theorem lookupAdj_addEdge (adj : List (String × List String)) (c : Connection)
    (x : String) :
    lookupAdj (addEdge adj c) x =
      if x = c.fromId then lookupAdj adj x ++ [c.toId] else lookupAdj adj x := by
  unfold addEdge
  by_cases hkey : hasKey adj c.fromId
  · rw [if_pos hkey]
    by_cases hx : x = c.fromId
    · subst hx
      rw [if_pos rfl]
      exact lookupAdj_map_same c adj hkey
    · rw [if_neg hx]
      exact lookupAdj_map_other c x hx adj
  · have hkey' : hasKey adj c.fromId = false := by simpa using hkey
    rw [if_neg (by simp [hkey'])]
    by_cases hx : x = c.fromId
    · subst hx
      rw [if_pos rfl]
      exact lookupAdj_append_same c adj hkey'
    · rw [if_neg hx]
      exact lookupAdj_append_other c x hx adj

theorem mem_lookupAdj_foldl (a b : String) :
    ∀ (conns : List Connection) (adj : List (String × List String)),
      b ∈ lookupAdj (conns.foldl addEdge adj) a ↔
        b ∈ lookupAdj adj a ∨ (⟨a, b⟩ : Connection) ∈ conns := by
  intro conns
  induction conns with
  | nil => simp
  | cons c rest ih =>
    intro adj
    obtain ⟨cf, ct⟩ := c
    rw [List.foldl_cons, ih (addEdge adj ⟨cf, ct⟩), lookupAdj_addEdge]
    dsimp only
    by_cases hx : a = cf
    · subst hx
      rw [if_pos rfl]
      simp only [List.mem_append, List.mem_cons, List.mem_singleton,
        Connection.mk.injEq, true_and]
      tauto
    · rw [if_neg hx]
      simp only [List.mem_cons, Connection.mk.injEq]
      constructor
      · rintro (h | h)
        · exact Or.inl h
        · exact Or.inr (Or.inr h)
      · rintro (h | (⟨h1, -⟩ | h))
        · exact Or.inl h
        · exact absurd h1 hx
        · exact Or.inr h

theorem mem_lookupAdj_buildAdj (conns : List Connection) (a b : String) :
    b ∈ lookupAdj (buildAdj conns) a ↔ (⟨a, b⟩ : Connection) ∈ conns := by
  have h := mem_lookupAdj_foldl a b conns []
  simpa [buildAdj, lookupAdj] using h

theorem head?_drop_indexOfStr (x : String) :
    ∀ l : List String, x ∈ l → (l.drop (indexOfStr x l)).head? = some x := by
  intro l
  induction l with
  | nil => intro h; simp at h
  | cons y ys ih =>
    intro h
    by_cases hy : y = x
    · simp [indexOfStr, hy]
    · have hx : x ∈ ys := by
        rcases List.mem_cons.mp h with h' | h'
        · exact absurd h'.symm hy
        · exact h'
      simpa [indexOfStr, hy] using ih hx

/-- Soundness of the neighbour loop of `dfsDetectCycle`: under the loop's
invariants, a reported cycle is a closed chain of adjacency edges. -/
theorem dfs_fold_sound (adj : List (String × List String)) (fuel : Nat)
    (node : String) (recStack' path' : List String)
    (hchain : List.Chain' (fun u v => v ∈ lookupAdj adj u) path')
    (hlast : path'.getLast? = some node)
    (hrs : ∀ x ∈ recStack', x ∈ path')
    (IH : ∀ (n : String) (visited : List String) (c v' : List String),
      n ∈ lookupAdj adj node →
      dfsDetectCycle adj fuel n visited recStack' path' = (some c, v') →
      2 ≤ c.length ∧ c.head? = c.getLast? ∧
        List.Chain' (fun u v => v ∈ lookupAdj adj u) c) :
    ∀ ns : List String, (∀ n ∈ ns, n ∈ lookupAdj adj node) →
      ∀ acc : Option (List String) × List String,
      (∀ c0, acc.1 = some c0 → 2 ≤ c0.length ∧ c0.head? = c0.getLast? ∧
        List.Chain' (fun u v => v ∈ lookupAdj adj u) c0) →
      ∀ c v',
      ns.foldl
        (fun acc neighbor =>
          match acc with
          | (some cycle, v) => (some cycle, v)
          | (none, v) =>
            if neighbor ∉ v then
              dfsDetectCycle adj fuel neighbor v recStack' path'
            else if neighbor ∈ recStack' then
              (some (path'.drop (indexOfStr neighbor path') ++ [neighbor]), v)
            else (none, v)) acc = (some c, v') →
      2 ≤ c.length ∧ c.head? = c.getLast? ∧
        List.Chain' (fun u v => v ∈ lookupAdj adj u) c := by
  intro ns
  induction ns with
  | nil =>
    intro _ acc hacc c v' hfold
    rw [List.foldl_nil] at hfold
    exact hacc c (by rw [hfold])
  | cons n rest ihns =>
    intro hns acc hacc c v' hfold
    rw [List.foldl_cons] at hfold
    refine ihns (fun n' hn' => hns n' (List.mem_cons_of_mem n hn')) _ ?_ c v' hfold
    obtain ⟨o, v⟩ := acc
    cases o with
    | some cyc => exact fun c0 h0 => hacc c0 h0
    | none =>
      have hn : n ∈ lookupAdj adj node := hns n (List.mem_cons_self n rest)
      by_cases hv : n ∈ v
      · by_cases hr : n ∈ recStack'
        · simp only [hv, not_true_eq_false, if_false, hr, if_true]
          intro c0 h0
          simp only [Option.some.injEq] at h0
          subst h0
          have hnp : n ∈ path' := hrs n hr
          have hhead : (path'.drop (indexOfStr n path')).head? = some n :=
            head?_drop_indexOfStr n path' hnp
          have hne : path'.drop (indexOfStr n path') ≠ [] := by
            intro h
            rw [h] at hhead
            simp at hhead
          have hsuf : path'.drop (indexOfStr n path') <:+ path' :=
            List.drop_suffix _ _
          have hchaind : List.Chain' (fun u v => v ∈ lookupAdj adj u)
              (path'.drop (indexOfStr n path')) := hchain.suffix hsuf
          have hlastd : (path'.drop (indexOfStr n path')).getLast? = some node := by
            obtain ⟨t, ht⟩ := hsuf
            rw [← hlast]
            conv_rhs => rw [← ht]
            exact (List.getLast?_append_of_ne_nil t hne).symm
          refine ⟨?_, ?_, ?_⟩
          · have hpos : 0 < (path'.drop (indexOfStr n path')).length :=
              List.length_pos.mpr hne
            simp only [List.length_append, List.length_singleton]
            omega
          · rw [List.getLast?_concat]
            rw [List.head?_append_of_ne_nil _ hne]
            exact hhead
          · rw [List.chain'_append]
            refine ⟨hchaind, List.chain'_singleton n, ?_⟩
            intro x hx y hy
            simp only [List.head?_cons, Option.mem_def, Option.some.injEq] at hy
            subst hy
            rw [hlastd] at hx
            simp only [Option.mem_def, Option.some.injEq] at hx
            subst hx
            exact hn
        · simp only [hv, not_true_eq_false, if_false, hr, if_false]
          intro c0 h0
          simp at h0
      · simp only [hv, not_false_eq_true, if_true]
        intro c0 h0
        rcases hd : dfsDetectCycle adj fuel n v recStack' path' with ⟨o', v''⟩
        rw [hd] at h0
        simp only at h0
        exact IH n v c0 v'' hn (by rw [hd, h0])

/-- Soundness of `dfsDetectCycle`: whatever it reports is a closed chain of
adjacency edges with at least two entries, starting and ending at the same
node. -/
theorem dfs_sound (adj : List (String × List String)) :
    ∀ (fuel : Nat) (node : String) (visited recStack path : List String)
      (c v' : List String),
      List.Chain' (fun u v => v ∈ lookupAdj adj u) (path ++ [node]) →
      (∀ x ∈ recStack, x ∈ path) →
      dfsDetectCycle adj fuel node visited recStack path = (some c, v') →
      2 ≤ c.length ∧ c.head? = c.getLast? ∧
        List.Chain' (fun u v => v ∈ lookupAdj adj u) c := by
  intro fuel
  induction fuel with
  | zero =>
    intro node visited recStack path c v' _ _ hres
    simp [dfsDetectCycle] at hres
  | succ fuel ih =>
    intro node visited recStack path c v' hchain hrs hres
    simp only [dfsDetectCycle] at hres
    have hlast : (path ++ [node]).getLast? = some node := List.getLast?_concat _
    have hrs' : ∀ x ∈ node :: recStack, x ∈ path ++ [node] := by
      intro x hx
      rcases List.mem_cons.mp hx with h | h
      · subst h
        exact List.mem_append_right _ (List.mem_singleton_self _)
      · exact List.mem_append_left _ (hrs x h)
    have IHfold : ∀ (n : String) (visited0 : List String) (c0 v'' : List String),
        n ∈ lookupAdj adj node →
        dfsDetectCycle adj fuel n visited0 (node :: recStack) (path ++ [node]) =
          (some c0, v'') →
        2 ≤ c0.length ∧ c0.head? = c0.getLast? ∧
          List.Chain' (fun u v => v ∈ lookupAdj adj u) c0 := by
      intro n visited0 c0 v'' hn hres0
      refine ih n visited0 (node :: recStack) (path ++ [node]) c0 v'' ?_ hrs' hres0
      rw [List.chain'_append]
      refine ⟨hchain, List.chain'_singleton n, ?_⟩
      intro x hx y hy
      simp only [List.head?_cons, Option.mem_def, Option.some.injEq] at hy
      subst hy
      rw [hlast] at hx
      simp only [Option.mem_def, Option.some.injEq] at hx
      subst hx
      exact hn
    exact dfs_fold_sound adj fuel node (node :: recStack) (path ++ [node])
      hchain hlast hrs' IHfold (lookupAdj adj node) (fun n hn => hn)
      (none, node :: visited) (by simp) c v' hres

theorem detectLoop_sound (adj : List (String × List String)) (fuel : Nat) :
    ∀ (keys visited : List String) (c : List String),
      detectLoop adj fuel keys visited = some c →
      2 ≤ c.length ∧ c.head? = c.getLast? ∧
        List.Chain' (fun u v => v ∈ lookupAdj adj u) c := by
  intro keys
  induction keys with
  | nil =>
    intro visited c h
    simp [detectLoop] at h
  | cons k rest ih =>
    intro visited c h
    by_cases hk : k ∈ visited
    · rw [detectLoop, if_pos hk] at h
      exact ih visited c h
    · rw [detectLoop, if_neg hk] at h
      rcases hd : dfsDetectCycle adj fuel k visited [] [] with ⟨o, v''⟩
      rw [hd] at h
      cases o with
      | some cyc =>
        simp only [Option.some.injEq] at h
        subst h
        exact dfs_sound adj fuel k visited [] [] cyc v''
          (by simp) (by simp) hd
      | none => exact ih v'' c h

/-- C4.  Every cycle reported by the graph model's cycle detection is a
genuine directed cycle of the stored connections (closed: first and last
entries coincide; every consecutive pair is a stored connection; length at
least two) — hence an acyclic connection graph reports no cycle at all —
and the claim's concrete shapes hold: a three-node cycle A→B→C→A is
reported as `[A, B, C, A]` and a self-connection X→X as `[X, X]`. -/
theorem detectCyclicDependency_reports_real_cycles :
    (∀ (s : LayerStructure) (c : List String),
      s.detectCyclicDependency = some c → CycleIn s c) ∧
    (∀ s : LayerStructure, (¬ ∃ c, CycleIn s c) →
      s.detectCyclicDependency = none) ∧
    cyc3.detectCyclicDependency = some ["A", "B", "C", "A"] ∧
    selfLoop.detectCyclicDependency = some ["X", "X"] := by
  have hsound : ∀ (s : LayerStructure) (c : List String),
      s.detectCyclicDependency = some c → CycleIn s c := by
    intro s c h
    unfold LayerStructure.detectCyclicDependency at h
    obtain ⟨h1, h2, h3⟩ := detectLoop_sound _ _ _ _ c h
    refine ⟨h1, h2, ?_⟩
    exact h3.imp fun a b hb => (mem_lookupAdj_buildAdj s.connections a b).mp hb
  refine ⟨hsound, ?_, by decide, by decide⟩
  intro s hno
  cases hd : s.detectCyclicDependency with
  | none => rfl
  | some c => exact absurd ⟨c, hsound s c hd⟩ hno

/-- C4 witness: the reported `[A, B, C, A]` on the three-service example is
a genuine cycle of the stored connections. -/
theorem detectCyclicDependency_reports_real_cycles_witness :
    CycleIn cyc3 ["A", "B", "C", "A"] :=
  detectCyclicDependency_reports_real_cycles.1 cyc3 ["A", "B", "C", "A"]
    (by decide)

/-! ## C9: one layer per block id -/

theorem blocks_setLayer (s : LayerStructure) (l : LayerId) (lay : Layer) :
    (s.setLayer l lay).blocks = s.blocks := by
  cases l <;> rfl

theorem connections_setLayer (s : LayerStructure) (l : LayerId) (lay : Layer) :
    (s.setLayer l lay).connections = s.connections := by
  cases l <;> rfl

theorem getLayer_setLayer_same (s : LayerStructure) (l : LayerId) (lay : Layer) :
    (s.setLayer l lay).getLayer l = lay := by
  cases l <;> rfl

theorem getLayer_setLayer_other (s : LayerStructure) (l l' : LayerId)
    (lay : Layer) (h : l' ≠ l) :
    (s.setLayer l lay).getLayer l' = s.getLayer l' := by
  cases l <;> cases l' <;> first | rfl | exact absurd rfl h

theorem getLayer_set_blocks (s : LayerStructure)
    (bl : List (String × BlockEntry)) (l : LayerId) :
    ({ s with blocks := bl } : LayerStructure).getLayer l = s.getLayer l := by
  cases l <;> rfl

theorem getLayer_set_connections (s : LayerStructure) (cs : List Connection)
    (l : LayerId) :
    ({ s with connections := cs } : LayerStructure).getLayer l = s.getLayer l := by
  cases l <;> rfl

theorem mem_layerAddBlock_iff (lay : Layer) (x id : String) :
    id ∈ (lay.addBlock x).blocks ↔ id ∈ lay.blocks ∨ id = x := by
  unfold Layer.addBlock
  by_cases h : x ∈ lay.blocks
  · rw [if_pos h]
    constructor
    · exact fun h' => Or.inl h'
    · rintro (h' | rfl)
      · exact h'
      · exact h
  · rw [if_neg h]
    simp

theorem hasKey_false_iff {β : Type} (m : List (String × β)) (k : String) :
    hasKey m k = false ↔ lookupPair m k = none := by
  unfold hasKey
  cases lookupPair m k <;> simp

/-- The two outcomes of `addBlock`: an unchanged state on failure, or the
success state described field by field. -/
theorem addBlock_state (s : LayerStructure) (l : LayerId) (b : CodeBlock) :
    (s.addBlock l b).2 = s ∨
    ((s.addBlock l b).2.blocks = setPair s.blocks b.id ⟨b, l⟩ ∧
      (s.addBlock l b).2.connections = s.connections ∧
      (s.addBlock l b).2.getLayer l = (s.getLayer l).addBlock b.id ∧
      ∀ l' : LayerId, l' ≠ l → (s.addBlock l b).2.getLayer l' = s.getLayer l') := by
  cases h : LayerStructure.validateBlockPlacement l b with
  | fail e =>
    left
    simp only [LayerStructure.addBlock, h]
  | ok u =>
    right
    simp only [LayerStructure.addBlock, h]
    refine ⟨?_, ?_, ?_, ?_⟩
    · dsimp only
      rw [blocks_setLayer]
    · dsimp only
      rw [connections_setLayer]
    · rw [getLayer_set_blocks, getLayer_setLayer_same]
    · intro l' hl'
      rw [getLayer_set_blocks, getLayer_setLayer_other _ _ _ _ hl']

/-- The two outcomes of `createConnection`: an unchanged state on failure,
or the appended connection with both endpoints registered. -/
theorem createConnection_state (s : LayerStructure) (f t : String) :
    (s.createConnection f t).2 = s ∨
    ((s.createConnection f t).2 =
        { s with connections := s.connections ++ [⟨f, t⟩] } ∧
      (s.lookupBlock f).isSome ∧ (s.lookupBlock t).isSome) := by
  cases hf : s.lookupBlock f with
  | none => left; simp [LayerStructure.createConnection, hf]
  | some fe =>
    cases ht : s.lookupBlock t with
    | none => left; simp [LayerStructure.createConnection, hf, ht]
    | some te =>
      cases hv : LayerStructure.validateDependency fe.layerId te.layerId with
      | fail e => left; simp [LayerStructure.createConnection, hf, ht, hv]
      | ok u =>
        right
        refine ⟨by simp [LayerStructure.createConnection, hf, ht, hv], ?_, ?_⟩
        · rfl
        · rfl

/-- One mutation preserves the C9 invariants, provided the added block id
(if any) is fresh. -/
theorem runOp_preserves (s : LayerStructure) (op : Op)
    (h1 : LayerMapConsistent s) (h2 : ConnectionsRegistered s)
    (hfresh : ∀ i ∈ addBlockIds [op], ¬ hasKey s.blocks i = true) :
    LayerMapConsistent (runOp s op) ∧ ConnectionsRegistered (runOp s op) ∧
    (∀ id e, lookupPair s.blocks id = some e →
      lookupPair (runOp s op).blocks id = some e) ∧
    (∀ id, hasKey (runOp s op).blocks id = true →
      hasKey s.blocks id = true ∨ id ∈ addBlockIds [op]) := by
  cases op with
  | addBlock l b =>
    have hfb : ¬ hasKey s.blocks b.id = true :=
      hfresh b.id (by simp [addBlockIds])
    have hfb' : lookupPair s.blocks b.id = none :=
      (hasKey_false_iff _ _).mp (by simpa using hfb)
    have hne_of_some : ∀ {id : String} {e : BlockEntry},
        lookupPair s.blocks id = some e → id ≠ b.id := by
      intro id e he h
      subst h
      rw [hfb'] at he
      exact Option.noConfusion he
    rcases addBlock_state s l b with heq | ⟨hbl, hcn, hsame, hother⟩
    · simp only [runOp]
      rw [heq]
      exact ⟨h1, h2, fun id e h => h, fun id h => Or.inl h⟩
    · simp only [runOp]
      refine ⟨?_, ?_, ?_, ?_⟩
      · intro l' id hid
        by_cases hl : l' = l
        · subst hl
          rw [hsame, mem_layerAddBlock_iff] at hid
          rcases hid with hid | rfl
          · obtain ⟨b0, hb0⟩ := h1 l' id hid
            refine ⟨b0, ?_⟩
            rw [hbl, lookupPair_setPair_other _ _ _ _ (hne_of_some hb0)]
            exact hb0
          · refine ⟨b, ?_⟩
            rw [hbl]
            exact lookupPair_setPair_self _ _ _
        · rw [hother l' hl] at hid
          obtain ⟨b0, hb0⟩ := h1 l' id hid
          refine ⟨b0, ?_⟩
          rw [hbl, lookupPair_setPair_other _ _ _ _ (hne_of_some hb0)]
          exact hb0
      · intro c hc
        rw [hcn] at hc
        obtain ⟨hcf, hct⟩ := h2 c hc
        obtain ⟨e1, he1⟩ := Option.isSome_iff_exists.mp hcf
        obtain ⟨e2, he2⟩ := Option.isSome_iff_exists.mp hct
        constructor
        · rw [hbl, lookupPair_setPair_other _ _ _ _ (hne_of_some he1), he1]
          rfl
        · rw [hbl, lookupPair_setPair_other _ _ _ _ (hne_of_some he2), he2]
          rfl
      · intro id e he
        rw [hbl, lookupPair_setPair_other _ _ _ _ (hne_of_some he)]
        exact he
      · intro id hid
        by_cases hne : id = b.id
        · right
          simp [addBlockIds, hne]
        · left
          rw [hbl] at hid
          unfold hasKey at hid ⊢
          rw [lookupPair_setPair_other _ _ _ _ hne] at hid
          exact hid
  | createConnection f t =>
    rcases createConnection_state s f t with heq | ⟨heq, hcf, hct⟩
    · simp only [runOp]
      rw [heq]
      exact ⟨h1, h2, fun id e h => h, fun id h => Or.inl h⟩
    · simp only [runOp]
      rw [heq]
      refine ⟨?_, ?_, fun id e h => h, fun id h => Or.inl h⟩
      · intro l id hid
        rw [getLayer_set_connections] at hid
        exact h1 l id hid
      · intro c hc
        dsimp only at hc ⊢
        rcases List.mem_append.mp hc with hc | hc
        · exact h2 c hc
        · have hce : c = ⟨f, t⟩ := List.mem_singleton.mp hc
          subst hce
          exact ⟨hcf, hct⟩

theorem addBlockIds_append (xs ys : List Op) :
    addBlockIds (xs ++ ys) = addBlockIds xs ++ addBlockIds ys := by
  unfold addBlockIds
  rw [List.filterMap_append]

/-- Running a sequence of mutations with pairwise-fresh block ids preserves
the C9 invariants, keeps every existing block-map entry, and introduces no
key outside the sequence's own ids. -/
theorem execFrom_inv :
    ∀ (ops : List Op) (s : LayerStructure),
      LayerMapConsistent s → ConnectionsRegistered s →
      (∀ i ∈ addBlockIds ops, ¬ hasKey s.blocks i = true) →
      (addBlockIds ops).Nodup →
      LayerMapConsistent (execFrom s ops) ∧
      ConnectionsRegistered (execFrom s ops) ∧
      (∀ id e, lookupPair s.blocks id = some e →
        lookupPair (execFrom s ops).blocks id = some e) ∧
      (∀ id, hasKey (execFrom s ops).blocks id = true →
        hasKey s.blocks id = true ∨ id ∈ addBlockIds ops) := by
  intro ops
  induction ops with
  | nil =>
    intro s h1 h2 _ _
    exact ⟨h1, h2, fun id e h => h, fun id h => Or.inl h⟩
  | cons op rest ih =>
    intro s h1 h2 hfresh hnodup
    have hsplit : addBlockIds (op :: rest) = addBlockIds [op] ++ addBlockIds rest := by
      have : (op :: rest) = [op] ++ rest := rfl
      rw [this, addBlockIds_append]
    have hfresh1 : ∀ i ∈ addBlockIds [op], ¬ hasKey s.blocks i = true := by
      intro i hi
      exact hfresh i (by rw [hsplit]; exact List.mem_append_left _ hi)
    obtain ⟨p1, p2, p3, p4⟩ := runOp_preserves s op h1 h2 hfresh1
    rw [hsplit] at hnodup
    have hfresh' : ∀ i ∈ addBlockIds rest, ¬ hasKey (runOp s op).blocks i = true := by
      intro i hi hk
      rcases p4 i hk with hk' | hk'
      · exact hfresh i (by rw [hsplit]; exact List.mem_append_right _ hi) hk'
      · exact (List.disjoint_of_nodup_append hnodup) hk' hi
    obtain ⟨q1, q2, q3, q4⟩ :=
      ih (runOp s op) p1 p2 hfresh' hnodup.of_append_right
    refine ⟨q1, q2, fun id e h => q3 id e (p3 id e h), ?_⟩
    intro id h
    rcases q4 id h with h' | h'
    · rcases p4 id h' with h'' | h''
      · exact Or.inl h''
      · right
        rw [hsplit]
        exact List.mem_append_left _ h''
    · right
      rw [hsplit]
      exact List.mem_append_right _ h'

/-- C9 counterexample.  Nothing stops two `addBlock` calls from reusing one
block id: after `dupIdOps` the id `"x"` is a member of both the application
and the presentation layer's block sets, and its block-map entry has
silently moved from the application layer to the presentation layer. -/
theorem exec_duplicate_id_counterexample :
    "x" ∈ ((exec dupIdOps).getLayer .application).blocks ∧
    "x" ∈ ((exec dupIdOps).getLayer .presentation).blocks ∧
    LayerId.application ≠ LayerId.presentation ∧
    (exec (dupIdOps.take 1)).lookupBlock "x" =
      some ⟨⟨"x", "S1", .service, [], []⟩, .application⟩ ∧
    (exec dupIdOps).lookupBlock "x" =
      some ⟨⟨"x", "S2", .service, [], []⟩, .presentation⟩ := by
  refine ⟨by decide, by decide, by decide, by decide, by decide⟩

/-- C9 amended.  For every call sequence from a fresh graph model whose
`addBlock` calls use pairwise-distinct block ids: no block id is a member
of two different layers' block sets, every stored connection's endpoints
are present in the block mapping, and a block's map entry — its layer
assignment included — never changes once present after any prefix of the
sequence. -/
theorem exec_distinct_ids_single_layer :
    ∀ ops : List Op, (addBlockIds ops).Nodup →
      (∀ (l l' : LayerId) (id : String),
        id ∈ ((exec ops).getLayer l).blocks →
        id ∈ ((exec ops).getLayer l').blocks → l = l') ∧
      (∀ c ∈ (exec ops).connections,
        ((exec ops).lookupBlock c.fromId).isSome ∧
        ((exec ops).lookupBlock c.toId).isSome) ∧
      (∀ (n : Nat) (id : String) (e : BlockEntry),
        (exec (ops.take n)).lookupBlock id = some e →
        (exec ops).lookupBlock id = some e) := by
  have hinv0 : LayerMapConsistent LayerStructure.create := by
    intro l id hid
    cases l <;> simp [LayerStructure.create, LayerStructure.getLayer] at hid
  have hconn0 : ConnectionsRegistered LayerStructure.create := by
    intro c hc
    simp [LayerStructure.create] at hc
  intro ops hnodup
  have hfresh0 : ∀ i ∈ addBlockIds ops, ¬ hasKey LayerStructure.create.blocks i = true := by
    intro i _ h
    simp [LayerStructure.create, hasKey, lookupPair] at h
  obtain ⟨hA, hB, _, _⟩ :=
    execFrom_inv ops LayerStructure.create hinv0 hconn0 hfresh0 hnodup
  refine ⟨?_, ?_, ?_⟩
  · intro l l' id hl hl'
    obtain ⟨b1, hb1⟩ := hA l id hl
    obtain ⟨b2, hb2⟩ := hA l' id hl'
    rw [hb1] at hb2
    simp only [Option.some.injEq, BlockEntry.mk.injEq] at hb2
    exact hb2.2
  · intro c hc
    exact hB c hc
  · intro n id e h
    have htd : ops.take n ++ ops.drop n = ops := List.take_append_drop n ops
    have hnd : (addBlockIds (ops.take n) ++ addBlockIds (ops.drop n)).Nodup := by
      rw [← addBlockIds_append, htd]
      exact hnodup
    have hfresh0t : ∀ i ∈ addBlockIds (ops.take n),
        ¬ hasKey LayerStructure.create.blocks i = true := by
      intro i _ h'
      simp [LayerStructure.create, hasKey, lookupPair] at h'
    obtain ⟨tA, tB, _, tD⟩ :=
      execFrom_inv (ops.take n) LayerStructure.create hinv0 hconn0 hfresh0t
        hnd.of_append_left
    have hfreshd : ∀ i ∈ addBlockIds (ops.drop n),
        ¬ hasKey (exec (ops.take n)).blocks i = true := by
      intro i hi hk
      rcases tD i hk with hk' | hk'
      · simp [LayerStructure.create, hasKey, lookupPair] at hk'
      · exact (List.disjoint_of_nodup_append hnd) hk' hi
    obtain ⟨_, _, dC, _⟩ :=
      execFrom_inv (ops.drop n) (exec (ops.take n)) tA tB hfreshd
        hnd.of_append_right
    have hsplit2 : exec ops = execFrom (exec (ops.take n)) (ops.drop n) := by
      unfold exec execFrom
      rw [← List.foldl_append, htd]
    rw [hsplit2]
    exact dC id e h

/-- C9 witness: the well-formed sequence `okOps` (distinct ids, one legal
connection), with the persistence component applied at the prefix of
length 2. -/
theorem exec_distinct_ids_single_layer_witness :
    (exec okOps).lookupBlock "a" =
      some ⟨⟨"a", "UserService", .service, [], []⟩, .application⟩ :=
  (exec_distinct_ids_single_layer okOps (by decide)).2.2 2 "a"
    ⟨⟨"a", "UserService", .service, [], []⟩, .application⟩ (by decide)

end ArchGame
